import Mathlib

/-!
Verification of the Tweet-Analysis-and-Sentiment-API repository.

This file gives a shallow embedding, in Lean 4, of the text-normalisation,
sentiment-labelling, storage-query, similarity-ranking and serialization
logic of the repository (Backend/preprocess.py, Backend/vader.py,
Backend/database.py, Backend/similarity.py, Backend/main.py), and settles
the frozen claims about that logic.

Modelling conventions:
* Python strings are embedded as `List Char`; regular-expression character
  classes (`\w`, `\s`, `\d`) are taken with their ASCII meaning.
* SQLite tables are embedded as lists of rows, in insertion order.
* `random.randint(1, count)` is embedded by passing the drawn value as an
  explicit argument.
* Real-valued scores and embedding components are embedded as `ℚ`
  (exact arithmetic in place of floating point).
* External black boxes (the VADER `polarity_scores` function, the sentence
  embedding model) are embedded as explicit function parameters.
-/

/-! ### Character classes (ASCII semantics of Python's regex classes) -/

/-- Python regex `\s` (ASCII part): space, tab, newline, carriage return,
vertical tab, form feed. -/
def isSpaceChar (c : Char) : Bool :=
  decide (c = ' ' ∨ c = '\t' ∨ c = '\n' ∨ c = '\r' ∨ c = '\x0b' ∨ c = '\x0c')

/-- Python regex `\w` (ASCII part): letters, digits, underscore. -/
def isWordChar (c : Char) : Bool :=
  decide (('a' ≤ c ∧ c ≤ 'z') ∨ ('A' ≤ c ∧ c ≤ 'Z') ∨ ('0' ≤ c ∧ c ≤ '9') ∨ c = '_')

/-- ASCII lower-casing, as used by SQLite's `LIKE` for case folding. -/
def lowerChar (c : Char) : Char :=
  if 'A' ≤ c ∧ c ≤ 'Z' then Char.ofNat (c.toNat + 32) else c

/-- ASCII decimal digit test. -/
def isDigitChar (c : Char) : Bool := decide ('0' ≤ c ∧ c ≤ '9')

/-! ### Backend/preprocess.py — `cleanup_single` (lines 36-65)

Each regex substitution of the Python source is embedded as a left-to-right
scan that mirrors `re.sub`'s leftmost, non-overlapping, greedy matching. -/

/-- `re.sub(r'@\w+', '', tweet)` (preprocess.py line 47): delete every
occurrence of `@` followed by one or more word characters (greedy). A `@`
not followed by a word character is kept. -/
def subAtMentions : List Char → List Char
  | [] => []
  | '@' :: rest =>
      if (rest.takeWhile isWordChar).isEmpty then '@' :: subAtMentions rest
      else subAtMentions (rest.dropWhile isWordChar)
  | c :: rest => c :: subAtMentions rest
termination_by l => l.length
decreasing_by
  · simp
  · simp only [List.length_cons]
    have h2 : List.Sublist (rest.dropWhile isWordChar) rest :=
      List.dropWhile_sublist isWordChar
    have := h2.length_le
    omega
  · simp

/-- The part of the URL regex `http[s]?://\S+` after the optional `s`: the
literal `://` followed by one or more non-whitespace characters (greedy
`\S+`); returns the unmatched remainder on success. -/
def matchUrlSep (rest2 : List Char) : Option (List Char) :=
  if rest2.take 3 = "://".toList then
    if ((rest2.drop 3).takeWhile (fun c => !isSpaceChar c)).isEmpty then none
    else some ((rest2.drop 3).dropWhile (fun c => !isSpaceChar c))
  else none

/-- One attempted match of `http[s]?://\S+` (preprocess.py line 50) at the
head of the list: the literal scheme `http`, an optional `s`, then the rest
of the pattern. Returns the remainder after the match if it succeeds,
`none` if there is no match at this position. -/
def matchUrl (l : List Char) : Option (List Char) :=
  if l.take 4 = "http".toList then
    matchUrlSep (if (l.drop 4).take 1 = "s".toList then (l.drop 4).drop 1 else l.drop 4)
  else none

theorem matchUrlSep_length {l r : List Char} (h : matchUrlSep l = some r) :
    r.length < l.length := by
  unfold matchUrlSep at h
  split at h
  · rename_i h3
    have hl3 : 3 ≤ l.length := by
      have h3' : (l.take 3).length = 3 := by rw [h3]; rfl
      simp only [List.length_take] at h3'
      omega
    split at h
    · cases h
    · rename_i hbody
      simp only [Option.some.injEq] at h
      subst h
      have hlen : ((l.drop 3).takeWhile (fun c => !isSpaceChar c)).length
          + ((l.drop 3).dropWhile (fun c => !isSpaceChar c)).length = (l.drop 3).length := by
        have hsp : (l.drop 3).takeWhile (fun c => !isSpaceChar c)
            ++ (l.drop 3).dropWhile (fun c => !isSpaceChar c) = l.drop 3 :=
          List.takeWhile_append_dropWhile _ _
        have h2 := congrArg List.length hsp
        rw [List.length_append] at h2
        exact h2
      have htw : ((l.drop 3).takeWhile (fun c => !isSpaceChar c)).length ≠ 0 := by
        simpa [List.isEmpty_iff, List.length_eq_zero] using hbody
      have : (l.drop 3).length = l.length - 3 := List.length_drop 3 l
      omega
  · cases h

theorem matchUrl_length {l r : List Char} (h : matchUrl l = some r) :
    r.length < l.length := by
  unfold matchUrl at h
  split at h
  · rename_i h4
    have hl4 : 4 ≤ l.length := by
      have h4' : (l.take 4).length = 4 := by rw [h4]; rfl
      simp only [List.length_take] at h4'
      omega
    have hsep := matchUrlSep_length h
    have : (if (l.drop 4).take 1 = "s".toList then (l.drop 4).drop 1
        else l.drop 4).length ≤ l.length - 4 := by
      split
      · simp only [List.length_drop]; omega
      · simp only [List.length_drop]; omega
    omega
  · cases h

/-- `re.sub(r'http[s]?://\S+', '', ...)` (preprocess.py line 50): scan left
to right; at each position either delete a URL match or keep the character. -/
def subUrls : List Char → List Char
  | [] => []
  | c :: rest =>
      match h : matchUrl (c :: rest) with
      | some rest2 => subUrls rest2
      | none => c :: subUrls rest
termination_by l => l.length
decreasing_by
  · exact matchUrl_length h
  · simp

/-- `if cleaned_tweet.startswith('RT : '): cleaned_tweet = cleaned_tweet[len('RT : '):]`
(preprocess.py lines 53-54). -/
def stripRT (l : List Char) : List Char :=
  if l.take 5 = "RT : ".toList then l.drop 5 else l

/-- Scanner for `re.sub(r'\b#', '', ...)` (preprocess.py line 57, and the
batch variant at line 27). `\b` immediately before `#` holds exactly when
the previous character is a word character (`#` itself is not one); the
first argument carries the previous character of the original string. At
the start of the string there is no previous word character, which the
non-word placeholder `' '` encodes. -/
def subHashAux : Char → List Char → List Char
  | _, [] => []
  | prev, '#' :: rest =>
      if isWordChar prev then subHashAux '#' rest else '#' :: subHashAux '#' rest
  | _, c :: rest => c :: subHashAux c rest

/-- `re.sub(r'\b#', '', ...)`: delete each `#` that is preceded by a word
character. -/
def subHash (l : List Char) : List Char := subHashAux ' ' l

/-- `cleaned_tweet.replace('\n', ' ')` (preprocess.py line 60). -/
def foldNewlines (l : List Char) : List Char :=
  l.map (fun c => if c = '\n' then ' ' else c)

/-- Scanner for `re.sub(r'\s+', ' ', ...)` (preprocess.py line 63): each
maximal run of whitespace becomes one space. The Boolean argument records
whether the previous character was whitespace (in which case further
whitespace is absorbed into the already-emitted space). -/
def collapseAux : Bool → List Char → List Char
  | _, [] => []
  | true, c :: rest =>
      if isSpaceChar c then collapseAux true rest else c :: collapseAux false rest
  | false, c :: rest =>
      if isSpaceChar c then ' ' :: collapseAux true rest else c :: collapseAux false rest

/-- `re.sub(r'\s+', ' ', ...)`. -/
def collapseSpaces (l : List Char) : List Char := collapseAux false l

/-- Python `str.strip()`: drop leading and trailing whitespace. -/
def pythonStrip (l : List Char) : List Char :=
  ((l.dropWhile isSpaceChar).reverse.dropWhile isSpaceChar).reverse

/-- `cleanup_single` (preprocess.py lines 36-65): the single-item cleaning
pipeline — mention stripping, URL stripping, retweet-prefix stripping,
leading-hash stripping, newline folding, whitespace collapsing + strip. -/
def cleanup_single (tweet : List Char) : List Char :=
  pythonStrip (collapseSpaces (foldNewlines (subHash (stripRT (subUrls (subAtMentions tweet))))))

/-! ### Backend/vader.py -/

/-- The four-dimensional sentiment score mapping returned by VADER's
`polarity_scores` (`neg`/`neu`/`pos`/`compound`). -/
structure Scores where
  neg : ℚ
  neu : ℚ
  pos : ℚ
  compound : ℚ
deriving DecidableEq

/-- `classify_sentiment` (vader.py lines 112-118): threshold the compound
score at `0.05` and `-0.05`. -/
def classify_sentiment (score : Scores) : String :=
  if score.compound ≥ 5/100 then "positive"
  else if score.compound ≤ -(5/100) then "negative"
  else "neutral"

/-- `vader_analyze_tweet` (vader.py lines 24-41): clean the tweet, score the
cleaned text, classify. The analyzer `sia` (the external
`SentimentIntensityAnalyzer.polarity_scores`) is passed as a function. -/
def vader_analyze_tweet (sia : List Char → Scores) (tweet : List Char) :
    List Char × Scores × String :=
  let cleaned_tweet := cleanup_single tweet
  let score := sia cleaned_tweet
  (tweet, score, classify_sentiment score)

/-- The per-item action of `vader_analyze_dataframe` (vader.py lines 17-18):
score the raw `text` column value and classify that score. -/
def vader_analyze_df_item (sia : List Char → Scores) (text : List Char) :
    Scores × String :=
  (sia text, classify_sentiment (sia text))

/-! ### Backend/database.py

The `entries` table is embedded as a list of rows in insertion order.
The `scores` column (stored as a JSON string and parsed back with
`json.loads` on read) is embedded directly as a `Scores` value, and the
`embedding` column likewise as the deserialized vector; the
serialization round trip itself is treated separately with `serializeVec`
and `deserializeVec` below. -/

/-- One row of the `entries` table (database.py lines 44-55). -/
structure Entry where
  id : ℕ
  text : List Char
  cleaned_text : List Char
  scores : Scores
  sentiment : String
  date : List Char
  cleaned_date : List Char
  embedding : List ℚ
deriving DecidableEq

/-- `get_random_entry` (database.py lines 75-97). `draw` is the value
produced by `random.randint(1, count)`; the caller's random draw is thus
made explicit. The function returns `None` when the table is empty, and
otherwise looks up the row whose `id` equals the draw, returning `None`
when no such row exists. -/
def get_random_entry (rows : List Entry) (draw : ℕ) :
    Option (ℕ × List Char × Scores × String) :=
  if rows.length = 0 then none
  else (rows.find? (fun row => row.id == draw)).map
    (fun row => (row.id, row.text, row.scores, row.sentiment))

/-! #### `filter_entries_by_date` (database.py lines 122-150) -/

/-- Lexicographic (byte-wise) string comparison, as used by SQLite's
`BETWEEN` on `TEXT` columns (BINARY collation) and by Python's `sorted`
on strings. -/
def lexLe : List Char → List Char → Bool
  | [], _ => true
  | _ :: _, [] => false
  | a :: x, b :: y => if a < b then true else if b < a then false else lexLe x y

/-- Numeric value of a list of ASCII digits. -/
def natOfDigits (l : List Char) : ℕ :=
  l.foldl (fun acc c => acc * 10 + (c.toNat - '0'.toNat)) 0

/-- Gregorian leap-year rule, as implemented by Python's `datetime`. -/
def isLeapYear (y : ℕ) : Bool := decide (y % 4 = 0 ∧ (y % 100 ≠ 0 ∨ y % 400 = 0))

/-- Number of days of month `m` in year `y` (Python `datetime` calendar). -/
def daysInMonth (y m : ℕ) : ℕ :=
  if m = 2 then (if isLeapYear y then 29 else 28)
  else if m = 4 ∨ m = 6 ∨ m = 9 ∨ m = 11 then 30
  else 31

/-- Success of `datetime.strptime(s, '%Y%m%d')` (database.py lines 135-136)
for an 8-digit input string: four year digits giving a year ≥ 1 (Python's
`MINYEAR`), a zero-padded month `01`-`12`, and a zero-padded day that is
valid for that month and year. -/
def validDate8 (s : List Char) : Bool :=
  decide (s.length = 8) && s.all isDigitChar &&
    (let y := natOfDigits (s.take 4)
     let m := natOfDigits ((s.drop 4).take 2)
     let d := natOfDigits (s.drop 6)
     decide (1 ≤ y ∧ 1 ≤ m ∧ m ≤ 12 ∧ 1 ≤ d ∧ d ≤ daysInMonth y m))

/-- The row tuple `(id, text, scores, sentiment, cleaned_date)` returned by
`filter_entries_by_date` (database.py line 142). -/
structure DateRow where
  id : ℕ
  text : List Char
  scores : Scores
  sentiment : String
  cleaned_date : List Char
deriving DecidableEq

/-- Projection of a stored row onto the columns selected by the date
filter's query. -/
def entryDateRow (r : Entry) : DateRow :=
  ⟨r.id, r.text, r.scores, r.sentiment, r.cleaned_date⟩

/-- The sort key comparison of `sorted(rows, key=lambda row: row[4])`
(database.py line 149). -/
def dateRowLe (a b : DateRow) : Prop := lexLe a.cleaned_date b.cleaned_date = true

instance : DecidableRel dateRowLe := fun a b => by unfold dateRowLe; infer_instance

/-- `filter_entries_by_date` (database.py lines 122-150): raise
`ValueError` when either bound fails to parse as `YYYYMMDD`; otherwise
return the rows whose `cleaned_date` lies between the bounds (inclusive,
lexicographic `BETWEEN`), sorted ascending by `cleaned_date` (Python's
`sorted` is a stable sort, which `List.insertionSort` matches). -/
def filter_entries_by_date (rows : List Entry) (start_date end_date : List Char) :
    Except String (List DateRow) :=
  if validDate8 start_date && validDate8 end_date then
    .ok (List.insertionSort dateRowLe
      ((rows.filter (fun r =>
          lexLe start_date r.cleaned_date && lexLe r.cleaned_date end_date)).map entryDateRow))
  else
    .error "Invalid date format. Please use YYYYMMDD."

/-! #### `search_tweets_by_keyword` (database.py lines 152-170) -/

/-- SQLite `LIKE` pattern matching: `%` matches any (possibly empty)
character sequence, `_` matches exactly one character, any other pattern
character matches case-insensitively (ASCII folding). -/
def likeMatch : List Char → List Char → Bool
  | [], t => t.isEmpty
  | p0 :: p, t =>
      if p0 = '%' then
        likeMatch p t || (match t with | [] => false | _ :: t2 => likeMatch (p0 :: p) t2)
      else
        match t with
        | [] => false
        | c :: t2 => (if p0 = '_' then true else lowerChar p0 == lowerChar c) && likeMatch p t2
termination_by p t => (p.length, t.length)

/-- `search_tweets_by_keyword` (database.py lines 152-170): return the
`(id, text)` pairs of the rows whose `cleaned_text` matches the `LIKE`
pattern `'%' + keyword + '%'`. -/
def search_tweets_by_keyword (rows : List Entry) (keyword : List Char) :
    List (ℕ × List Char) :=
  (rows.filter (fun r => likeMatch ('%' :: (keyword ++ ['%'])) r.cleaned_text)).map
    (fun r => (r.id, r.text))

/-! ### Backend/similarity.py — `get_top_n_similar_texts` (lines 45-79)

`cosine_similarity([q], M)` computes, for each stored vector `v`, the value
`q·v / (‖q‖‖v‖)` (with the sklearn convention that a zero vector is left
unnormalised, so its similarity is `0`). To keep the embedding exact and
executable, a similarity is represented by the pair
`(q·v, ‖q‖²‖v‖²) : ℚ × ℚ`, which stands for the real number
`q·v / √(‖q‖²‖v‖²)`; `cosLe` compares two such pairs exactly (sign first,
then squared magnitudes), and `cosValue` maps a pair to the real number it
stands for. -/

/-- Dot product of two equal-length vectors. -/
def dotQ (u v : List ℚ) : ℚ := (List.zipWith (fun a b => a * b) u v).sum

/-- Squared Euclidean norm. -/
def norm2Q (v : List ℚ) : ℚ := dotQ v v

/-- The exact representation of `cosine_similarity` between query `q` and a
stored vector `v`: the pair of the dot product and the product of the two
squared norms. -/
def simPair (q v : List ℚ) : ℚ × ℚ := (dotQ q v, norm2Q q * norm2Q v)

/-- Sign of the represented value `d / √n` (`0` when the norm product is
zero, i.e. either vector is a zero vector). -/
def cosSign (x : ℚ × ℚ) : ℤ :=
  if x.2 ≤ 0 ∨ x.1 = 0 then 0 else if 0 < x.1 then 1 else -1

/-- Exact comparison `value x ≤ value y` of two represented similarities:
compare signs first, then compare squared magnitudes cross-multiplied by
the (nonnegative) norm products. -/
def cosLe (x y : ℚ × ℚ) : Bool :=
  if cosSign x < cosSign y then true
  else if cosSign y < cosSign x then false
  else if cosSign x = 1 then decide (x.1 ^ 2 * y.2 ≤ y.1 ^ 2 * x.2)
  else if cosSign x = -1 then decide (y.1 ^ 2 * x.2 ≤ x.1 ^ 2 * y.2)
  else true

/-- The real number represented by a similarity pair. -/
noncomputable def cosValue (x : ℚ × ℚ) : ℝ :=
  if x.2 ≤ 0 then 0 else (x.1 : ℝ) / Real.sqrt (x.2 : ℝ)

/-- The rows of the DataFrame handed to `get_top_n_similar_texts`
(similarity.py line 51): a `text` column and a deserialized `embedding`
column. -/
structure SimRow where
  text : List Char
  embedding : List ℚ
deriving DecidableEq

/-- The descending-similarity ordering used by
`df.nlargest(top_n, 'similarity')` (similarity.py line 77): `a` comes
before `b` when `a`'s similarity to the query is at least `b`'s.
`nlargest(..., keep='first')` resolves ties by original row order, i.e. it
is the stable descending sort followed by `take top_n`, which
`List.insertionSort` with this relation computes. -/
def simGe (q : List ℚ) (a b : SimRow) : Prop :=
  cosLe (simPair q b.embedding) (simPair q a.embedding) = true

instance (q : List ℚ) : DecidableRel (simGe q) := fun a b => by
  unfold simGe; infer_instance

/-- `get_top_n_similar_texts` (similarity.py lines 45-79): embed the input
text with the (external) model, rank all rows by descending cosine
similarity to it — stably, ties in original order — and return the texts of
the first `top_n` rows. -/
def get_top_n_similar_texts (model : List Char → List ℚ) (df : List SimRow)
    (input_text : List Char) (top_n : ℕ) : List (List Char) :=
  let input_embedding := model input_text
  ((List.insertionSort (simGe input_embedding) df).take top_n).map (fun r => r.text)

/-! ### Backend/main.py — `/top_n_similar_texts/` endpoint (lines 216-251) -/

/-- `top_n_similar_texts` (main.py lines 216-251): look up the row with the
given id (404 when absent), build the candidate DataFrame from the rows
`WHERE id != ?` (text and deserialized embedding columns), and rank the
candidates against the looked-up row's `cleaned_text`. -/
def top_n_similar_texts (model : List Char → List ℚ) (rows : List Entry)
    (id top_n : ℕ) : Except String (List (List Char)) :=
  match rows.find? (fun r => r.id == id) with
  | none => .error "Text not found for the given ID"
  | some row =>
      let all_texts := (rows.filter (fun r => r.id != id)).map
        (fun r => SimRow.mk r.text r.embedding)
      .ok (get_top_n_similar_texts model all_texts row.cleaned_text top_n)

/-! ### Embedding serialization (similarity.py line 38, main.py line 246)

`compute_df_embeddings` stores each embedding as
`json.dumps(vector.tolist())` and `top_n_similar_texts` reads it back with
`json.loads`. A Python float is a dyadic rational, so every component has
an exact finite decimal representation, and `json.dumps`/`json.loads`
write and re-read such decimal literals exactly. The embedding models a
vector component as an exact decimal `mant / 10 ^ scale` and the
serialized form as the JSON array text `[c1, c2, ...]` of decimal
literals. -/

/-- One vector component, an exact decimal number `mant / 10 ^ scale`
(every IEEE-754 double is of this form). -/
structure DecNum where
  mant : ℤ
  scale : ℕ
deriving DecidableEq

/-- The rational value of a decimal component. -/
def DecNum.val (x : DecNum) : ℚ := (x.mant : ℚ) / 10 ^ x.scale

/-- The ten decimal digit characters. -/
def digitCh : ℕ → Char
  | 0 => '0' | 1 => '1' | 2 => '2' | 3 => '3' | 4 => '4'
  | 5 => '5' | 6 => '6' | 7 => '7' | 8 => '8' | _ => '9'

/-- Decimal digits of `a`, most significant first (`[0]` for zero). -/
def digitsMSB (a : ℕ) : List ℕ :=
  if a = 0 then [0] else (Nat.digits 10 a).reverse

/-- Decimal numeral of a natural number. -/
def printNat (a : ℕ) : List Char := (digitsMSB a).map digitCh

/-- Decimal literal of the non-negative number `a / 10 ^ k`: the numeral of
`a`, left-padded with zeros to at least `k + 1` digits, with a decimal
point `k` places from the right (omitted when `k = 0`). -/
def printUnsigned (a k : ℕ) : List Char :=
  let ds := List.replicate (k + 1 - (printNat a).length) '0' ++ printNat a
  if k = 0 then ds else ds.take (ds.length - k) ++ '.' :: ds.drop (ds.length - k)

/-- Decimal literal of a component, with a leading `-` for negative
mantissas (the form `json.dumps` emits for a float). -/
def printNum (x : DecNum) : List Char :=
  (if x.mant < 0 then ['-'] else []) ++ printUnsigned x.mant.natAbs x.scale

/-- `', '.join`-style concatenation with the separator `", "` that
`json.dumps` places between array elements. -/
def joinCommaSep : List (List Char) → List Char
  | [] => []
  | [p] => p
  | p :: ps => p ++ ',' :: ' ' :: joinCommaSep ps

/-- `serializeVec`: the JSON array text for a vector, as produced by
`json.dumps(vector.tolist())`. -/
def serializeVec (v : List DecNum) : List Char :=
  '[' :: (joinCommaSep (v.map printNum) ++ [']'])

/-- Numeric value of one decimal digit character. -/
def charToDigit (c : Char) : Option ℕ :=
  if isDigitChar c then some (c.toNat - '0'.toNat) else none

/-- Parse a string of digit characters into the digit list (most
significant first); fails on any non-digit. -/
def parseDigits : List Char → Option (List ℕ)
  | [] => some []
  | c :: r =>
      match charToDigit c, parseDigits r with
      | some d, some ds => some (d :: ds)
      | _, _ => none

/-- Numeric value of a digit list given most significant first. -/
def valOfDigits (ds : List ℕ) : ℕ := Nat.ofDigits 10 ds.reverse

/-- Parse a non-empty digit string to its numeric value. -/
def parseNatStr (l : List Char) : Option ℕ :=
  if l.isEmpty then none else (parseDigits l).map valOfDigits

/-- Parse an unsigned JSON decimal literal: digits, optionally followed by
a point and at least one fractional digit. -/
def parseUnsigned (l : List Char) : Option ℚ :=
  let intPart := l.takeWhile (fun c => c ≠ '.')
  match l.dropWhile (fun c => c ≠ '.') with
  | [] => (parseNatStr intPart).map (fun n => (n : ℚ))
  | _ :: fracPart =>
      match parseNatStr intPart, parseDigits fracPart with
      | some i, some fds =>
          if fracPart.isEmpty then none
          else some ((i : ℚ) + (valOfDigits fds : ℚ) / 10 ^ fds.length)
      | _, _ => none

/-- Parse a signed JSON decimal literal. -/
def parseNum (l : List Char) : Option ℚ :=
  if l.take 1 = "-".toList then (parseUnsigned (l.drop 1)).map (fun q => -q)
  else parseUnsigned l

/-- Split a character list at every comma (the JSON array item separator;
decimal literals contain no comma). -/
def splitComma : List Char → List (List Char)
  | [] => [[]]
  | c :: r =>
      if c = ',' then [] :: splitComma r
      else
        match splitComma r with
        | [] => [[c]]
        | g :: gs => (c :: g) :: gs

/-- Parse every item of a split JSON array body, ignoring the space that
follows each comma. -/
def parseItems : List (List Char) → Option (List ℚ)
  | [] => some []
  | it :: its =>
      match parseNum (it.dropWhile (fun c => c = ' ')), parseItems its with
      | some q, some qs => some (q :: qs)
      | _, _ => none

/-- `deserializeVec`: `json.loads` of a JSON array of decimal literals,
returning the list of component values. -/
def deserializeVec (s : List Char) : Option (List ℚ) :=
  if s.take 1 = "[".toList ∧ s.getLast? = some ']' then
    let content := (s.drop 1).dropLast
    if content.isEmpty then some [] else parseItems (splitComma content)
  else none

/-! ### Helper lemmas about whitespace collapsing and stripping -/

/-- The list does not begin with a whitespace character. -/
def noLeadB : List Char → Bool
  | [] => true
  | c :: _ => !isSpaceChar c

/-- The list does not end with a whitespace character. -/
def noTrailB (l : List Char) : Bool := noLeadB l.reverse

/-- Every whitespace character in the list is a plain space and no two
adjacent characters are both whitespace. -/
def collapsedB : List Char → Bool
  | [] => true
  | [c] => !isSpaceChar c || (c == ' ')
  | c1 :: c2 :: r =>
      (!isSpaceChar c1 || ((c1 == ' ') && !isSpaceChar c2)) && collapsedB (c2 :: r)

theorem mem_collapseAux {c : Char} : ∀ {b : Bool} {l : List Char},
    c ∈ collapseAux b l → c ∈ l ∨ c = ' '
  | _, [], h => by simp [collapseAux] at h
  | true, d :: rest, h => by
      rw [collapseAux] at h
      split at h
      · rcases mem_collapseAux h with h2 | h2
        · exact Or.inl (List.mem_cons_of_mem _ h2)
        · exact Or.inr h2
      · rcases List.mem_cons.mp h with h2 | h2
        · exact Or.inl (h2 ▸ List.mem_cons_self _ _)
        · rcases mem_collapseAux h2 with h3 | h3
          · exact Or.inl (List.mem_cons_of_mem _ h3)
          · exact Or.inr h3
  | false, d :: rest, h => by
      rw [collapseAux] at h
      split at h
      · rcases List.mem_cons.mp h with h2 | h2
        · exact Or.inr h2
        · rcases mem_collapseAux h2 with h3 | h3
          · exact Or.inl (List.mem_cons_of_mem _ h3)
          · exact Or.inr h3
      · rcases List.mem_cons.mp h with h2 | h2
        · exact Or.inl (h2 ▸ List.mem_cons_self _ _)
        · rcases mem_collapseAux h2 with h3 | h3
          · exact Or.inl (List.mem_cons_of_mem _ h3)
          · exact Or.inr h3

theorem noLead_collapseAux_true : ∀ l : List Char, noLeadB (collapseAux true l) = true
  | [] => rfl
  | c :: rest => by
      rw [collapseAux]
      split
      · exact noLead_collapseAux_true rest
      · rename_i h
        simp [noLeadB, h]

theorem collapsedB_tail {c : Char} {l : List Char} (h : collapsedB (c :: l) = true) :
    collapsedB l = true := by
  match l with
  | [] => rfl
  | d :: r =>
      rw [collapsedB] at h
      exact (Bool.and_eq_true _ _ ▸ h).2

theorem collapsedB_cons_nonspace {c : Char} {l : List Char}
    (hc : isSpaceChar c = false) (h : collapsedB l = true) :
    collapsedB (c :: l) = true := by
  match l with
  | [] => simp [collapsedB, hc]
  | d :: r =>
      rw [collapsedB, h]
      simp [hc]

theorem collapsedB_cons_space {l : List Char}
    (hl : noLeadB l = true) (h : collapsedB l = true) :
    collapsedB (' ' :: l) = true := by
  match l with
  | [] => rfl
  | d :: r =>
      rw [collapsedB, h]
      simp only [noLeadB] at hl
      simp [hl, show isSpaceChar ' ' = true from rfl]

theorem collapsedB_collapseAux : ∀ (l : List Char) (b : Bool),
    collapsedB (collapseAux b l) = true
  | [], b => by cases b <;> rfl
  | c :: rest, true => by
      rw [collapseAux]
      split
      · exact collapsedB_collapseAux rest true
      · rename_i h
        exact collapsedB_cons_nonspace (by simpa using h) (collapsedB_collapseAux rest false)
  | c :: rest, false => by
      rw [collapseAux]
      split
      · exact collapsedB_cons_space (noLead_collapseAux_true rest)
          (collapsedB_collapseAux rest true)
      · rename_i h
        exact collapsedB_cons_nonspace (by simpa using h) (collapsedB_collapseAux rest false)

theorem collapse_fix : ∀ (n : ℕ) (l : List Char), l.length ≤ n →
    collapsedB l = true → noLeadB l = true →
    collapseAux false l = l ∧ collapseAux true l = l := by
  intro n
  induction n with
  | zero =>
      intro l hn _ _
      have : l = [] := List.length_eq_zero.mp (Nat.le_zero.mp hn)
      subst this
      exact ⟨rfl, rfl⟩
  | succ n ih =>
      intro l hn hc hl
      match l with
      | [] => exact ⟨rfl, rfl⟩
      | c :: rest =>
          simp only [noLeadB, Bool.not_eq_true'] at hl
          have hstep : ∀ b : Bool, collapseAux b (c :: rest) = c :: collapseAux false rest := by
            intro b
            cases b <;> rw [collapseAux] <;> rw [if_neg (by simp [hl])]
          have hrest : collapseAux false rest = rest := by
            match rest with
            | [] => rfl
            | d :: t =>
                by_cases hd : isSpaceChar d = true
                · -- `d` is whitespace: from `collapsedB (d :: t)` it is a plain
                  -- space and `t` starts with a non-space character.
                  have hdt : collapsedB (d :: t) = true := collapsedB_tail hc
                  have hpair : d = ' ' ∧ noLeadB t = true := by
                    match t with
                    | [] =>
                        simp only [collapsedB, hd, Bool.not_true, Bool.false_or,
                          beq_iff_eq] at hdt
                        exact ⟨hdt, rfl⟩
                    | e :: t2 =>
                        rw [collapsedB] at hdt
                        have h2 := (Bool.and_eq_true _ _ ▸ hdt).1
                        simp only [hd, Bool.not_true, Bool.false_or, Bool.and_eq_true,
                          beq_iff_eq] at h2
                        exact ⟨h2.1, by simp [noLeadB, h2.2]⟩
                  have ht : collapseAux true t = t := by
                    have hct : collapsedB t = true := collapsedB_tail (collapsedB_tail hc)
                    have hlt : noLeadB t = true := hpair.2
                    have hlen : t.length ≤ n := by
                      simp only [List.length_cons] at hn
                      omega
                    exact (ih t hlen hct hlt).2
                  rw [collapseAux, if_pos hd, ht, hpair.1]
                · -- `d` is not whitespace: appeal to the induction hypothesis.
                  have hct : collapsedB (d :: t) = true := collapsedB_tail hc
                  have hlen : (d :: t).length ≤ n := by
                    simp only [List.length_cons] at hn ⊢
                    omega
                  exact (ih (d :: t) hlen hct (by simp [noLeadB, hd])).1
          exact ⟨by rw [hstep, hrest], by rw [hstep, hrest]⟩

theorem noLead_dropWhile (l : List Char) :
    noLeadB (l.dropWhile isSpaceChar) = true := by
  induction l with
  | nil => rfl
  | cons c rest ih =>
      rw [List.dropWhile_cons]
      split
      · exact ih
      · rename_i h
        simp [noLeadB, h]

theorem dropWhile_eq_self_of_noLead {l : List Char} (h : noLeadB l = true) :
    l.dropWhile isSpaceChar = l := by
  match l with
  | [] => rfl
  | c :: rest =>
      simp only [noLeadB, Bool.not_eq_true'] at h
      rw [List.dropWhile_cons, if_neg (by simp [h])]

theorem exists_dropWhile_suffix (l : List Char) :
    ∃ s, l = s ++ l.dropWhile isSpaceChar := by
  induction l with
  | nil => exact ⟨[], rfl⟩
  | cons c rest ih =>
      rw [List.dropWhile_cons]
      split
      · obtain ⟨s, hs⟩ := ih
        exact ⟨c :: s, by rw [List.cons_append, ← hs]⟩
      · exact ⟨[], rfl⟩

theorem collapsedB_append_right : ∀ (s l : List Char),
    collapsedB (s ++ l) = true → collapsedB l = true
  | [], _, h => h
  | c :: s, l, h => collapsedB_append_right s l (collapsedB_tail (by simpa using h))

theorem collapsedB_take : ∀ (l : List Char) (m : ℕ),
    collapsedB l = true → collapsedB (l.take m) = true := by
  intro l
  induction l with
  | nil => intro m _; simp [collapsedB]
  | cons c rest ih =>
      intro m hc
      match m with
      | 0 => rfl
      | m + 1 =>
          rw [List.take_succ_cons]
          match rest, m with
          | [], _ => simpa [List.take_nil] using hc
          | d :: t, 0 =>
              -- one-element take: keep only the single-character condition
              rw [collapsedB] at hc
              have h1 := (Bool.and_eq_true _ _ ▸ hc).1
              simp only [List.take_zero, collapsedB]
              rcases Bool.or_eq_true _ _ ▸ h1 with h2 | h2
              · simp [h2]
              · simp [(Bool.and_eq_true _ _ ▸ h2).1]
          | d :: t, m + 1 =>
              rw [List.take_succ_cons]
              rw [collapsedB] at hc
              have h1 := (Bool.and_eq_true _ _ ▸ hc).1
              have h2 := (Bool.and_eq_true _ _ ▸ hc).2
              have ih2 := ih (m + 1) h2
              rw [List.take_succ_cons] at ih2
              rw [show collapsedB (c :: d :: (t.take m)) =
                ((!isSpaceChar c || ((c == ' ') && !isSpaceChar d)) &&
                  collapsedB (d :: t.take m)) from rfl]
              rw [h1, ih2]
              rfl

theorem noLead_take {l : List Char} (m : ℕ) (h : noLeadB l = true) :
    noLeadB (l.take m) = true := by
  match l, m with
  | [], _ => simpa using h
  | _ :: _, 0 => rfl
  | c :: rest, m + 1 => simpa [noLeadB, List.take_succ_cons] using h

theorem pythonStrip_eq_take (l : List Char) :
    ∃ m, pythonStrip l = (l.dropWhile isSpaceChar).take m := by
  obtain ⟨s, hs⟩ := exists_dropWhile_suffix (l.dropWhile isSpaceChar).reverse
  set A := ((l.dropWhile isSpaceChar).reverse.dropWhile isSpaceChar).reverse with hA
  have h2 : l.dropWhile isSpaceChar = A ++ s.reverse := by
    rw [hA, ← List.reverse_append, ← hs, List.reverse_reverse]
  refine ⟨A.length, ?_⟩
  show A = (l.dropWhile isSpaceChar).take A.length
  rw [h2, List.take_left]

theorem noLead_pythonStrip (l : List Char) : noLeadB (pythonStrip l) = true := by
  obtain ⟨m, hm⟩ := pythonStrip_eq_take l
  rw [hm]
  exact noLead_take m (noLead_dropWhile l)

theorem noTrail_pythonStrip (l : List Char) : noTrailB (pythonStrip l) = true := by
  unfold noTrailB pythonStrip
  rw [List.reverse_reverse]
  exact noLead_dropWhile _

theorem collapsedB_pythonStrip {l : List Char} (h : collapsedB l = true) :
    collapsedB (pythonStrip l) = true := by
  obtain ⟨m, hm⟩ := pythonStrip_eq_take l
  rw [hm]
  obtain ⟨s, hs⟩ := exists_dropWhile_suffix l
  exact collapsedB_take _ m (collapsedB_append_right s _ (by rw [← hs]; exact h))

theorem pythonStrip_eq_self {l : List Char} (h1 : noLeadB l = true)
    (h2 : noTrailB l = true) : pythonStrip l = l := by
  unfold pythonStrip
  rw [dropWhile_eq_self_of_noLead h1, dropWhile_eq_self_of_noLead h2,
    List.reverse_reverse]

theorem mem_pythonStrip {c : Char} {l : List Char} (h : c ∈ pythonStrip l) : c ∈ l := by
  obtain ⟨m, hm⟩ := pythonStrip_eq_take l
  rw [hm] at h
  exact (List.dropWhile_sublist isSpaceChar).mem ((List.take_sublist _ _).mem h)

theorem foldNewlines_eq_self {l : List Char} (h : '\n' ∉ l) : foldNewlines l = l := by
  unfold foldNewlines
  induction l with
  | nil => rfl
  | cons c rest ih =>
      simp only [List.mem_cons, not_or] at h
      rw [List.map_cons, if_neg (fun hc => h.1 hc.symm), ih h.2]

theorem newline_not_mem_collapseAux {b : Bool} {l : List Char}
    (h : '\n' ∉ l) : '\n' ∉ collapseAux b l := by
  intro hmem
  rcases mem_collapseAux hmem with h2 | h2
  · exact h h2
  · cases h2

theorem newline_not_mem_foldNewlines (l : List Char) : '\n' ∉ foldNewlines l := by
  intro hmem
  unfold foldNewlines at hmem
  obtain ⟨c, _, hc⟩ := List.mem_map.mp hmem
  by_cases h : c = '\n'
  · rw [if_pos h] at hc; cases hc
  · rw [if_neg h] at hc; exact h hc

/-! ### Claim C2 — sentiment label thresholds -/

/-- C2: for every scores mapping the label is a pure function of the
compound score: `compound >= 0.05` gives "positive", `compound <= -0.05`
gives "negative", otherwise "neutral"; the boundary values `0.05`, `-0.05`
and `0.0` are labelled positive, negative and neutral respectively. -/
theorem classify_sentiment_spec (s : Scores) :
    (classify_sentiment s = "positive" ↔ 5/100 ≤ s.compound) ∧
    (classify_sentiment s = "negative" ↔ s.compound ≤ -(5/100)) ∧
    (classify_sentiment s = "neutral" ↔ -(5/100) < s.compound ∧ s.compound < 5/100) ∧
    classify_sentiment s = classify_sentiment ⟨0, 0, 0, s.compound⟩ ∧
    classify_sentiment ⟨s.neg, s.neu, s.pos, 5/100⟩ = "positive" ∧
    classify_sentiment ⟨s.neg, s.neu, s.pos, -(5/100)⟩ = "negative" ∧
    classify_sentiment ⟨s.neg, s.neu, s.pos, 0⟩ = "neutral" := by
  refine ⟨?_, ?_, ?_, rfl, ?_, ?_, ?_⟩
  · unfold classify_sentiment
    split_ifs with h1 h2
    · exact iff_of_true rfl h1
    · exact iff_of_false (by decide) h1
    · exact iff_of_false (by decide) h1
  · unfold classify_sentiment
    split_ifs with h1 h2
    · exact iff_of_false (by decide) (by intro h; rw [ge_iff_le] at h1; linarith)
    · exact iff_of_true rfl h2
    · exact iff_of_false (by decide) h2
  · unfold classify_sentiment
    split_ifs with h1 h2
    · exact iff_of_false (by decide) (by intro h; rw [ge_iff_le] at h1; linarith [h.2])
    · exact iff_of_false (by decide) (by intro h; linarith [h.1])
    · exact iff_of_true rfl ⟨by rw [not_le] at h2; linarith,
        by rw [ge_iff_le, not_le] at h1; linarith⟩
  · unfold classify_sentiment
    norm_num
  · unfold classify_sentiment
    norm_num
  · unfold classify_sentiment
    norm_num

/-! ### Claim C8 — the leading-hash stripping step -/

/-- C8 (evaluation of the code at the divergence): the hash-stripping
regex `\b#` leaves a `#` that starts a token in place — `"#dope"` and
`" #tag"` are unchanged — and instead removes a `#` that is directly
preceded by a word character, as in `"a#b"`, where the `#` does not start
a token. -/
theorem hash_stripping_behavior :
    cleanup_single ("#dope".toList) = "#dope".toList ∧
    subHash (" #tag".toList) = " #tag".toList ∧
    subHash ("a#b".toList) = "ab".toList := by
  refine ⟨?_, by decide, by decide⟩
  simp [cleanup_single, subAtMentions, subUrls, matchUrl, matchUrlSep, stripRT, subHash,
    subHashAux, foldNewlines, collapseSpaces, collapseAux, pythonStrip, isWordChar,
    isSpaceChar, List.takeWhile, List.dropWhile]

/-! ### Claim C3 — idempotence of the single-item normalizer -/

/-- C3 counterexample: the claimed idempotence fails. One pass over
`"RT : RT : a"` strips a single retweet prefix and leaves `"RT : a"`,
which a second pass strips again. -/
theorem cleanup_single_not_idempotent :
    cleanup_single (cleanup_single ("RT : RT : a".toList))
      ≠ cleanup_single ("RT : RT : a".toList) := by
  have e1 : cleanup_single ("RT : RT : a".toList) = "RT : a".toList := by
    simp [cleanup_single, subAtMentions, subUrls, matchUrl, matchUrlSep, stripRT, subHash,
      subHashAux, foldNewlines, collapseSpaces, collapseAux, pythonStrip, isWordChar,
      isSpaceChar, List.takeWhile, List.dropWhile]
  have e2 : cleanup_single ("RT : a".toList) = "a".toList := by
    simp [cleanup_single, subAtMentions, subUrls, matchUrl, matchUrlSep, stripRT, subHash,
      subHashAux, foldNewlines, collapseSpaces, collapseAux, pythonStrip, isWordChar,
      isSpaceChar, List.takeWhile, List.dropWhile]
  rw [e1, e2]
  decide

/-- C3 (amended): `cleanup_single` is idempotent on every input whose
cleaned output is left unchanged by the four stripping steps (mentions,
URLs, retweet prefix, leading hash); the remaining steps (newline folding,
whitespace collapsing, stripping) are then fixed on the output, so a second
pass changes nothing. On general strings idempotence fails
(`cleanup_single_not_idempotent`). -/
theorem cleanup_single_idempotent_of_fixed (x : List Char)
    (h1 : subAtMentions (cleanup_single x) = cleanup_single x)
    (h2 : subUrls (cleanup_single x) = cleanup_single x)
    (h3 : stripRT (cleanup_single x) = cleanup_single x)
    (h4 : subHash (cleanup_single x) = cleanup_single x) :
    cleanup_single (cleanup_single x) = cleanup_single x := by
  have hy : cleanup_single x = pythonStrip (collapseSpaces (foldNewlines
      (subHash (stripRT (subUrls (subAtMentions x)))))) := rfl
  set y := cleanup_single x with hyy
  have hnl : '\n' ∉ y := by
    rw [hy]
    intro hmem
    exact newline_not_mem_collapseAux (newline_not_mem_foldNewlines _) (mem_pythonStrip hmem)
  have hcol : collapsedB y = true := by
    rw [hy]; exact collapsedB_pythonStrip (collapsedB_collapseAux _ false)
  have hlead : noLeadB y = true := by rw [hy]; exact noLead_pythonStrip _
  have htrail : noTrailB y = true := by rw [hy]; exact noTrail_pythonStrip _
  show pythonStrip (collapseSpaces (foldNewlines (subHash (stripRT (subUrls
    (subAtMentions y)))))) = y
  rw [h1, h2, h3, h4, foldNewlines_eq_self hnl]
  rw [show collapseSpaces y = y from (collapse_fix y.length y le_rfl hcol hlead).1]
  exact pythonStrip_eq_self hlead htrail

/-- Witness for `cleanup_single_idempotent_of_fixed` at the input
`"a  b\nc"` (cleaned to `"a b c"`). -/
theorem cleanup_single_idempotent_of_fixed_witness :
    (subAtMentions (cleanup_single ("a  b\nc".toList)) = cleanup_single ("a  b\nc".toList)) ∧
    (subUrls (cleanup_single ("a  b\nc".toList)) = cleanup_single ("a  b\nc".toList)) ∧
    (stripRT (cleanup_single ("a  b\nc".toList)) = cleanup_single ("a  b\nc".toList)) ∧
    (subHash (cleanup_single ("a  b\nc".toList)) = cleanup_single ("a  b\nc".toList)) ∧
    cleanup_single (cleanup_single ("a  b\nc".toList)) = cleanup_single ("a  b\nc".toList) := by
  have e : cleanup_single ("a  b\nc".toList) = "a b c".toList := by
    simp [cleanup_single, subAtMentions, subUrls, matchUrl, matchUrlSep, stripRT, subHash,
      subHashAux, foldNewlines, collapseSpaces, collapseAux, pythonStrip, isWordChar,
      isSpaceChar, List.takeWhile, List.dropWhile]
  have h1 : subAtMentions (cleanup_single ("a  b\nc".toList))
      = cleanup_single ("a  b\nc".toList) := by
    rw [e]; simp [subAtMentions, isWordChar, List.takeWhile]
  have h2 : subUrls (cleanup_single ("a  b\nc".toList))
      = cleanup_single ("a  b\nc".toList) := by
    rw [e]; simp [subUrls, matchUrl, matchUrlSep]
  have h3 : stripRT (cleanup_single ("a  b\nc".toList))
      = cleanup_single ("a  b\nc".toList) := by
    rw [e]; decide
  have h4 : subHash (cleanup_single ("a  b\nc".toList))
      = cleanup_single ("a  b\nc".toList) := by
    rw [e]; decide
  exact ⟨h1, h2, h3, h4, cleanup_single_idempotent_of_fixed _ h1 h2 h3 h4⟩

/-! ### Claim C4 — batch versus single-item scoring -/

/-- A concrete scoring function exhibiting the batch/single divergence: it
gives compound `0.9` to the raw text `"@u hi"` and `0` to anything else
(in particular to the cleaned text `"hi"`). -/
def siaDemo : List Char → Scores :=
  fun t => if t = "@u hi".toList then ⟨0, 0, 0, 9/10⟩ else ⟨0, 0, 0, 0⟩

/-- C4 counterexample: the batch variant scores the raw text while the
single-item variant scores the cleaned text, so on `"@u hi"` (cleaned to
`"hi"`) the two variants disagree on both scores and label. -/
theorem batch_vs_single_counterexample :
    (vader_analyze_df_item siaDemo ("@u hi".toList)).1
        ≠ (vader_analyze_tweet siaDemo ("@u hi".toList)).2.1 ∧
    (vader_analyze_df_item siaDemo ("@u hi".toList)).2
        ≠ (vader_analyze_tweet siaDemo ("@u hi".toList)).2.2 := by
  have e : cleanup_single ("@u hi".toList) = "hi".toList := by
    simp [cleanup_single, subAtMentions, subUrls, matchUrl, matchUrlSep, stripRT, subHash,
      subHashAux, foldNewlines, collapseSpaces, collapseAux, pythonStrip, isWordChar,
      isSpaceChar, List.takeWhile, List.dropWhile]
  have hraw : siaDemo ("@u hi".toList) = ⟨0, 0, 0, 9/10⟩ := by
    simp [siaDemo]
  have hclean : siaDemo ("hi".toList) = ⟨0, 0, 0, 0⟩ := by
    simp only [siaDemo, if_neg (by decide : ¬("hi".toList = "@u hi".toList))]
  constructor
  · show (siaDemo ("@u hi".toList)) ≠ siaDemo (cleanup_single ("@u hi".toList))
    rw [e, hraw, hclean]
    simp only [ne_eq, Scores.mk.injEq, not_and]
    intro _ _ _
    norm_num
  · show classify_sentiment (siaDemo ("@u hi".toList))
        ≠ classify_sentiment (siaDemo (cleanup_single ("@u hi".toList)))
    rw [e, hraw, hclean]
    have hp : classify_sentiment ⟨0, 0, 0, 9/10⟩ = "positive" := by
      unfold classify_sentiment; norm_num
    have hn : classify_sentiment ⟨0, 0, 0, 0⟩ = "neutral" := by
      unfold classify_sentiment; norm_num
    rw [hp, hn]
    decide

/-- C4 (amended): the batch variant applies the scoring function to the
raw text while the single-item variant applies it to the cleaned text; for
every text that the cleaner leaves unchanged the two variants produce
identical scores and label. -/
theorem batch_matches_single_on_clean_text (sia : List Char → Scores) (t : List Char)
    (h : cleanup_single t = t) :
    vader_analyze_df_item sia t
      = ((vader_analyze_tweet sia t).2.1, (vader_analyze_tweet sia t).2.2) := by
  simp only [vader_analyze_df_item, vader_analyze_tweet, h]

/-- Witness for `batch_matches_single_on_clean_text` at the text
`"hello"` and the constant-zero scoring function. -/
theorem batch_matches_single_on_clean_text_witness :
    cleanup_single ("hello".toList) = "hello".toList ∧
    vader_analyze_df_item (fun _ => ⟨0, 0, 0, 0⟩) ("hello".toList)
      = ((vader_analyze_tweet (fun _ => ⟨0, 0, 0, 0⟩) ("hello".toList)).2.1,
         (vader_analyze_tweet (fun _ => ⟨0, 0, 0, 0⟩) ("hello".toList)).2.2) := by
  have h : cleanup_single ("hello".toList) = "hello".toList := by
    simp [cleanup_single, subAtMentions, subUrls, matchUrl, matchUrlSep, stripRT, subHash,
      subHashAux, foldNewlines, collapseSpaces, collapseAux, pythonStrip, isWordChar,
      isSpaceChar, List.takeWhile, List.dropWhile]
  exact ⟨h, batch_matches_single_on_clean_text _ _ h⟩

/-! ### Claim C1 — random entry retrieval -/

/-- A store state with one row whose id is `2` (a gap at id `1`). -/
def entryGap : Entry :=
  ⟨2, "t".toList, "t".toList, ⟨0, 0, 0, 0⟩, "neutral", "d".toList, "20180101".toList, [1]⟩

/-- C1 counterexample: on a non-empty store whose single row has id `2`,
the draw `1` — the only value `random.randint(1, 1)` can produce — finds no
row with that id and returns the empty result, although the store is
non-empty. -/
theorem get_random_entry_gap_counterexample :
    get_random_entry [entryGap] 1 = none ∧ ([entryGap] : List Entry) ≠ [] := by
  exact ⟨by decide, by decide⟩

/-- C1 (amended): on a store whose ids are exactly `1..count` (dense, as
produced by the repository's single bulk insertion into a fresh
autoincrement table): the result is empty exactly when the store is empty;
every draw in `[1, count]` returns the unique existing row with that id —
never an error and never a default entry — and every row is returned by
exactly the draw equal to its id, so the uniform draw induces the uniform
distribution over the existing rows. -/
theorem get_random_entry_dense_spec (rows : List Entry) (draw : ℕ)
    (hdense : (rows.map Entry.id).Perm (List.range' 1 rows.length)) :
    (rows = [] → get_random_entry rows draw = none) ∧
    (rows ≠ [] → 1 ≤ draw → draw ≤ rows.length →
      ∃ row ∈ rows, row.id = draw ∧
        (∀ r2 ∈ rows, r2.id = draw → r2 = row) ∧
        get_random_entry rows draw = some (row.id, row.text, row.scores, row.sentiment)) ∧
    (∀ row ∈ rows, 1 ≤ row.id ∧ row.id ≤ rows.length ∧
        get_random_entry rows row.id = some (row.id, row.text, row.scores, row.sentiment)) := by
  have hnodup : (rows.map Entry.id).Nodup :=
    hdense.nodup_iff.mpr (List.nodup_range' 1 rows.length)
  have hinj : ∀ a ∈ rows, ∀ b ∈ rows, a.id = b.id → a = b :=
    List.inj_on_of_nodup_map hnodup
  have hmem_id : ∀ i, i ∈ rows.map Entry.id ↔ (1 ≤ i ∧ i < 1 + rows.length) := by
    intro i
    rw [hdense.mem_iff, List.mem_range'_1]
  have hfind : ∀ d : ℕ, ∀ row ∈ rows, row.id = d →
      rows.find? (fun r => r.id == d) = some row := by
    intro d row hrow hid
    have hsome : (rows.find? (fun r => r.id == d)).isSome := by
      rw [List.find?_isSome]
      exact ⟨row, hrow, by simp [hid]⟩
    obtain ⟨r2, hr2⟩ := Option.isSome_iff_exists.mp hsome
    have hr2mem : r2 ∈ rows := List.mem_of_find?_eq_some hr2
    have hr2id : r2.id = d := by
      have := List.find?_some hr2
      simpa using this
    rw [hr2, hinj r2 hr2mem row hrow (by rw [hr2id, hid])]
  refine ⟨?_, ?_, ?_⟩
  · intro h
    subst h
    rfl
  · intro hne h1 h2
    have hdm : draw ∈ rows.map Entry.id := (hmem_id draw).mpr ⟨h1, by omega⟩
    obtain ⟨row, hrow, hid⟩ := List.mem_map.mp hdm
    refine ⟨row, hrow, hid, fun r2 h2m h2id => hinj r2 h2m row hrow (by rw [h2id, hid]), ?_⟩
    unfold get_random_entry
    rw [if_neg (by simpa [List.length_eq_zero] using hne), hfind draw row hrow hid]
    rfl
  · intro row hrow
    have hdm : row.id ∈ rows.map Entry.id := List.mem_map_of_mem _ hrow
    have hb := (hmem_id row.id).mp hdm
    refine ⟨hb.1, by omega, ?_⟩
    unfold get_random_entry
    have hne : rows ≠ [] := by
      intro h
      subst h
      simp at hrow
    rw [if_neg (by simpa [List.length_eq_zero] using hne), hfind row.id row hrow rfl]
    rfl

/-- A dense two-row store for the witness below. -/
def entryOne : Entry :=
  ⟨1, "t1".toList, "t1".toList, ⟨0, 0, 0, 0⟩, "neutral", "d".toList, "20180101".toList, [1]⟩

/-- Second row of the dense witness store. -/
def entryTwo : Entry :=
  ⟨2, "t2".toList, "t2".toList, ⟨0, 0, 0, 0⟩, "neutral", "d".toList, "20180102".toList, [1]⟩

/-- Witness for `get_random_entry_dense_spec`: a dense two-row store, with
the draw `2`. -/
theorem get_random_entry_dense_spec_witness :
    (([entryOne, entryTwo].map Entry.id).Perm (List.range' 1 2)) ∧
    (∃ row ∈ [entryOne, entryTwo], row.id = 2 ∧
      (∀ r2 ∈ [entryOne, entryTwo], r2.id = 2 → r2 = row) ∧
      get_random_entry [entryOne, entryTwo] 2
        = some (row.id, row.text, row.scores, row.sentiment)) := by
  have hdense : (([entryOne, entryTwo].map Entry.id).Perm (List.range' 1 2)) := by decide
  exact ⟨hdense,
    ((get_random_entry_dense_spec [entryOne, entryTwo] 2 hdense).2.1
      (by decide) (by decide) (by decide))⟩

/-! ### Claim C5 — date-range filtering -/

theorem lexLe_total : ∀ a b : List Char, lexLe a b = true ∨ lexLe b a = true
  | [], _ => Or.inl rfl
  | _ :: _, [] => Or.inr rfl
  | a :: x, b :: y => by
      rcases lt_trichotomy a b with h | h | h
      · left
        rw [lexLe, if_pos h]
      · subst h
        rcases lexLe_total x y with h2 | h2
        · left
          rw [lexLe, if_neg (lt_irrefl a), if_neg (lt_irrefl a)]
          exact h2
        · right
          rw [lexLe, if_neg (lt_irrefl a), if_neg (lt_irrefl a)]
          exact h2
      · right
        rw [lexLe, if_pos h]

theorem lexLe_trans : ∀ {a b c : List Char},
    lexLe a b = true → lexLe b c = true → lexLe a c = true
  | [], _, _, _, _ => rfl
  | _ :: _, [], _, hab, _ => by cases hab
  | _ :: _, _ :: _, [], _, hbc => by cases hbc
  | a :: x, b :: y, c :: z, hab, hbc => by
      have hab2 : a < b ∨ (a = b ∧ lexLe x y = true) := by
        rw [lexLe] at hab
        split_ifs at hab with g1 g2
        · exact Or.inl g1
        · exact Or.inr ⟨le_antisymm (le_of_not_lt g2) (le_of_not_lt g1), hab⟩
      have hbc2 : b < c ∨ (b = c ∧ lexLe y z = true) := by
        rw [lexLe] at hbc
        split_ifs at hbc with g1 g2
        · exact Or.inl g1
        · exact Or.inr ⟨le_antisymm (le_of_not_lt g2) (le_of_not_lt g1), hbc⟩
      rcases hab2 with h1 | ⟨rfl, h1⟩
      · rcases hbc2 with h2 | ⟨rfl, h2⟩
        · rw [lexLe, if_pos (h1.trans h2)]
        · rw [lexLe, if_pos h1]
      · rcases hbc2 with h2 | ⟨rfl, h2⟩
        · rw [lexLe, if_pos h2]
        · rw [lexLe, if_neg (lt_irrefl a), if_neg (lt_irrefl a)]
          exact lexLe_trans h1 h2

instance : IsTotal DateRow dateRowLe :=
  ⟨fun a b => lexLe_total a.cleaned_date b.cleaned_date⟩

instance : IsTrans DateRow dateRowLe :=
  ⟨fun _ _ _ hab hbc => lexLe_trans hab hbc⟩

/-- C5: for 8-digit date strings, `filter_by_date` fails (with the invalid
date error, returning no rows) exactly when a bound is not a valid
`YYYYMMDD` calendar date, and on success returns exactly the rows whose
`cleaned_date` lies in the inclusive lexicographic range `[start, end]`,
sorted ascending by `cleaned_date`. -/
theorem filter_entries_by_date_spec (rows : List Entry) (s e : List Char)
    (h8s : s.length = 8 ∧ s.all isDigitChar = true)
    (h8e : e.length = 8 ∧ e.all isDigitChar = true) :
    (filter_entries_by_date rows s e = .error "Invalid date format. Please use YYYYMMDD."
        ↔ ¬(validDate8 s = true ∧ validDate8 e = true)) ∧
    (∀ l, filter_entries_by_date rows s e = .ok l →
      (l.Perm ((rows.filter (fun r =>
          lexLe s r.cleaned_date && lexLe r.cleaned_date e)).map entryDateRow) ∧
       l.Sorted dateRowLe ∧
       (∀ dr, dr ∈ l ↔ ∃ r ∈ rows,
          lexLe s r.cleaned_date = true ∧ lexLe r.cleaned_date e = true ∧
            dr = entryDateRow r))) := by
  unfold filter_entries_by_date
  by_cases hv : validDate8 s && validDate8 e
  · rw [if_pos hv]
    constructor
    · constructor
      · intro h
        cases h
      · intro h
        exact absurd ⟨(Bool.and_eq_true _ _ ▸ hv).1, (Bool.and_eq_true _ _ ▸ hv).2⟩ h
    · intro l hl
      have hl2 : l = List.insertionSort dateRowLe
          ((rows.filter (fun r =>
            lexLe s r.cleaned_date && lexLe r.cleaned_date e)).map entryDateRow) := by
        cases hl
        rfl
      subst hl2
      refine ⟨List.perm_insertionSort _ _, List.sorted_insertionSort _ _, ?_⟩
      intro dr
      rw [List.mem_insertionSort, List.mem_map]
      constructor
      · rintro ⟨r, hr, rfl⟩
        have hr2 := List.mem_filter.mp hr
        exact ⟨r, hr2.1, (Bool.and_eq_true _ _ ▸ hr2.2).1,
          (Bool.and_eq_true _ _ ▸ hr2.2).2, rfl⟩
      · rintro ⟨r, hr, hsle, hle, rfl⟩
        exact ⟨r, List.mem_filter.mpr ⟨hr, by rw [hsle, hle]; rfl⟩, rfl⟩
  · rw [if_neg hv]
    constructor
    · constructor
      · intro _
        intro hcontra
        exact hv (by rw [hcontra.1, hcontra.2]; rfl)
      · intro _
        rfl
    · intro l hl
      cases hl

/-- Corpus row dated 2017-12-31 for the date-filter witness. -/
def entryDec : Entry :=
  ⟨1, "d1".toList, "d1".toList, ⟨0, 0, 0, 0⟩, "neutral", "x".toList, "20171231".toList, [1]⟩

/-- Corpus row dated 2018-01-15 for the date-filter witness. -/
def entryJan : Entry :=
  ⟨2, "d2".toList, "d2".toList, ⟨0, 0, 0, 0⟩, "neutral", "x".toList, "20180115".toList, [1]⟩

/-- Corpus row dated 2018-02-01 for the date-filter witness. -/
def entryFeb : Entry :=
  ⟨3, "d3".toList, "d3".toList, ⟨0, 0, 0, 0⟩, "neutral", "x".toList, "20180201".toList, [1]⟩

/-- Witness for `filter_entries_by_date_spec`: filtering the three-row
corpus dated `20171231`, `20180115`, `20180201` by the range
`["20180101", "20180131"]` returns exactly the `20180115` row. -/
theorem filter_entries_by_date_spec_witness :
    ("20180101".toList.length = 8 ∧ "20180101".toList.all isDigitChar = true) ∧
    ("20180131".toList.length = 8 ∧ "20180131".toList.all isDigitChar = true) ∧
    filter_entries_by_date [entryDec, entryJan, entryFeb]
        ("20180101".toList) ("20180131".toList) = .ok [entryDateRow entryJan] ∧
    ([entryDateRow entryJan].Sorted dateRowLe ∧
     (∀ dr, dr ∈ [entryDateRow entryJan] ↔ ∃ r ∈ [entryDec, entryJan, entryFeb],
        lexLe ("20180101".toList) r.cleaned_date = true ∧
        lexLe r.cleaned_date ("20180131".toList) = true ∧ dr = entryDateRow r)) := by
  have h8s : ("20180101".toList.length = 8 ∧ "20180101".toList.all isDigitChar = true) := by
    decide
  have h8e : ("20180131".toList.length = 8 ∧ "20180131".toList.all isDigitChar = true) := by
    decide
  have hok : filter_entries_by_date [entryDec, entryJan, entryFeb]
      ("20180101".toList) ("20180131".toList) = .ok [entryDateRow entryJan] := by
    rfl
  have hmain := (filter_entries_by_date_spec [entryDec, entryJan, entryFeb]
      ("20180101".toList) ("20180131".toList) h8s h8e).2 _ hok
  exact ⟨h8s, h8e, hok, hmain.2.1, hmain.2.2⟩

/-! ### Claim C7 — keyword search -/

/-- A `LIKE` pattern with no wildcard characters. -/
def wildcardFree (p : List Char) : Bool := p.all (fun c => decide (c ≠ '%' ∧ c ≠ '_'))

/-- ASCII lower-casing of a whole string. -/
def lowerList (l : List Char) : List Char := l.map lowerChar

/-- `leadsWith k t`: `k` is an initial segment of `t` (defined from the
spec's words, for comparison with the `LIKE`-based code). -/
def leadsWith : List Char → List Char → Bool
  | [], _ => true
  | _ :: _, [] => false
  | a :: k, c :: t => (a == c) && leadsWith k t

/-- `hasSub k t`: `k` occurs contiguously inside `t` (defined from the
spec's words, for comparison with the `LIKE`-based code). -/
def hasSub (k : List Char) : List Char → Bool
  | [] => leadsWith k []
  | c :: t2 => leadsWith k (c :: t2) || hasSub k t2

theorem likeMatch_nil (t : List Char) : likeMatch [] t = t.isEmpty := by
  rw [likeMatch.eq_def]

theorem likeMatch_pct (p t : List Char) :
    likeMatch ('%' :: p) t
      = (likeMatch p t || (match t with | [] => false | _ :: t2 => likeMatch ('%' :: p) t2)) := by
  rw [likeMatch.eq_def]
  dsimp only
  exact if_pos rfl

theorem likeMatch_lit {p0 : Char} (hpct : p0 ≠ '%') (hus : p0 ≠ '_') (p : List Char) :
    ∀ t, likeMatch (p0 :: p) t
      = (match t with
         | [] => false
         | c :: t2 => (lowerChar p0 == lowerChar c) && likeMatch p t2) := by
  intro t
  rw [likeMatch.eq_def]
  dsimp only
  rw [if_neg hpct]
  match t with
  | [] => rfl
  | c :: t2 =>
      dsimp only
      rw [if_neg hus]

/-- A wildcard-free pattern matches exactly the strings with the same
lower-casing. -/
theorem likeMatch_literal : ∀ (p : List Char), wildcardFree p = true →
    ∀ t, (likeMatch p t = true ↔ lowerList t = lowerList p)
  | [], _, t => by
      rw [likeMatch_nil]
      match t with
      | [] => simp [lowerList]
      | c :: t2 => simp [lowerList]
  | p0 :: p, hwf, t => by
      have hwf2 : wildcardFree p = true := by
        unfold wildcardFree at hwf ⊢
        simp only [List.all_cons, Bool.and_eq_true] at hwf
        exact hwf.2
      have hp0 : p0 ≠ '%' ∧ p0 ≠ '_' := by
        unfold wildcardFree at hwf
        simp only [List.all_cons, Bool.and_eq_true] at hwf
        simpa using hwf.1
      rw [likeMatch_lit hp0.1 hp0.2]
      match t with
      | [] => simp [lowerList]
      | c :: t2 =>
          simp only [lowerList, List.map_cons, List.cons.injEq, Bool.and_eq_true, beq_iff_eq]
          rw [likeMatch_literal p hwf2 t2]
          unfold lowerList
          constructor
          · rintro ⟨h1, h2⟩
            exact ⟨h1.symm, h2⟩
          · rintro ⟨h1, h2⟩
            exact ⟨h1.symm, h2⟩

/-- The single pattern `%` matches everything. -/
theorem likeMatch_pct_all : ∀ t, likeMatch ['%'] t = true
  | [] => by rw [likeMatch_pct, likeMatch_nil]; rfl
  | c :: t2 => by
      rw [likeMatch_pct]
      have := likeMatch_pct_all t2
      simp [this]

/-- A wildcard-free pattern followed by `%` matches exactly the strings
with a matching initial segment. -/
theorem likeMatch_lit_pct : ∀ (p : List Char), wildcardFree p = true →
    ∀ t, (likeMatch (p ++ ['%']) t = true
      ↔ ∃ t1 t2, t = t1 ++ t2 ∧ lowerList t1 = lowerList p)
  | [], _, t => by
      simp only [List.nil_append]
      rw [show likeMatch ['%'] t = true from likeMatch_pct_all t]
      constructor
      · intro _
        exact ⟨[], t, rfl, rfl⟩
      · intro _
        rfl
  | p0 :: p, hwf, t => by
      have hwf2 : wildcardFree p = true := by
        unfold wildcardFree at hwf ⊢
        simp only [List.all_cons, Bool.and_eq_true] at hwf
        exact hwf.2
      have hp0 : p0 ≠ '%' ∧ p0 ≠ '_' := by
        unfold wildcardFree at hwf
        simp only [List.all_cons, Bool.and_eq_true] at hwf
        simpa using hwf.1
      rw [List.cons_append, likeMatch_lit hp0.1 hp0.2]
      match t with
      | [] =>
          simp only [show (false = true) ↔ False from by simp, false_iff]
          rintro ⟨t1, t2, h1, h2⟩
          have : t1 = [] ∧ t2 = [] := by
            constructor
            · exact List.eq_nil_of_length_eq_zero (by
                have := congrArg List.length h1
                simp at this
                omega)
            · exact List.eq_nil_of_length_eq_zero (by
                have := congrArg List.length h1
                simp at this
                omega)
          rw [this.1] at h2
          have := congrArg List.length h2
          simp [lowerList] at this
      | c :: t2 =>
          simp only [Bool.and_eq_true, beq_iff_eq]
          rw [likeMatch_lit_pct p hwf2 t2]
          constructor
          · rintro ⟨h1, t1, t3, rfl, h2⟩
            exact ⟨c :: t1, t3, rfl, by
              simp only [lowerList, List.map_cons, List.cons.injEq]
              exact ⟨h1.symm, h2⟩⟩
          · rintro ⟨t1, t3, h1, h2⟩
            match t1 with
            | [] =>
                exfalso
                have := congrArg List.length h2
                simp [lowerList] at this
            | c1 :: t1' =>
                injection h1 with hc ht
                subst hc
                subst ht
                simp only [lowerList, List.map_cons, List.cons.injEq] at h2
                exact ⟨h2.1.symm, t1', t3, rfl, h2.2⟩

/-- A pattern with a leading `%` matches exactly the strings with a
suffix matching the rest of the pattern. -/
theorem likeMatch_pct_split (p : List Char) : ∀ t,
    (likeMatch ('%' :: p) t = true ↔ ∃ t1 t2, t = t1 ++ t2 ∧ likeMatch p t2 = true)
  | [] => by
      rw [likeMatch_pct]
      constructor
      · intro h
        exact ⟨[], [], rfl, by simpa using h⟩
      · rintro ⟨t1, t2, h1, h2⟩
        have ht1 : t1 = [] := List.eq_nil_of_length_eq_zero (by
          have := congrArg List.length h1
          simp at this
          omega)
        have ht2 : t2 = [] := List.eq_nil_of_length_eq_zero (by
          have := congrArg List.length h1
          simp at this
          omega)
        subst ht1; subst ht2
        simpa using h2
  | c :: t2 => by
      rw [likeMatch_pct]
      simp only [Bool.or_eq_true]
      constructor
      · rintro (h | h)
        · exact ⟨[], c :: t2, rfl, h⟩
        · obtain ⟨t1, t3, rfl, h2⟩ := (likeMatch_pct_split p t2).mp h
          exact ⟨c :: t1, t3, rfl, h2⟩
      · rintro ⟨t1, t3, h1, h2⟩
        match t1 with
        | [] =>
            left
            simp only [List.nil_append] at h1
            rw [h1]
            exact h2
        | c1 :: t1' =>
            right
            injection h1 with hc ht
            exact (likeMatch_pct_split p t2).mpr ⟨t1', t3, ht, h2⟩

theorem bool_eq_of_iff {a b : Bool} (h : a = true ↔ b = true) : a = b := by
  cases a <;> cases b <;> simp_all

theorem leadsWith_iff : ∀ (k t : List Char),
    (leadsWith k t = true ↔ ∃ t2, t = k ++ t2)
  | [], t => by
      simp only [leadsWith, List.nil_append]
      exact ⟨fun _ => ⟨t, rfl⟩, fun _ => trivial⟩
  | a :: k, [] => by
      simp only [leadsWith]
      constructor
      · intro h
        cases h
      · rintro ⟨t2, h⟩
        cases h
  | a :: k, c :: t => by
      simp only [leadsWith, Bool.and_eq_true, beq_iff_eq]
      rw [leadsWith_iff k t]
      constructor
      · rintro ⟨rfl, t2, rfl⟩
        exact ⟨t2, rfl⟩
      · rintro ⟨t2, h⟩
        injection h with h1 h2
        exact ⟨h1.symm, t2, h2⟩

theorem hasSub_iff (k : List Char) : ∀ t : List Char,
    (hasSub k t = true ↔ ∃ t1 t2, t = t1 ++ t2 ∧ leadsWith k t2 = true)
  | [] => by
      simp only [hasSub]
      constructor
      · intro h
        exact ⟨[], [], rfl, h⟩
      · rintro ⟨t1, t2, h1, h2⟩
        have ht1 : t1 = [] := List.eq_nil_of_length_eq_zero (by
          have := congrArg List.length h1
          simp at this
          omega)
        have ht2 : t2 = [] := List.eq_nil_of_length_eq_zero (by
          have := congrArg List.length h1
          simp at this
          omega)
        subst ht1; subst ht2
        exact h2
  | c :: t2 => by
      simp only [hasSub, Bool.or_eq_true]
      constructor
      · rintro (h | h)
        · exact ⟨[], c :: t2, rfl, h⟩
        · obtain ⟨t1, t3, rfl, h2⟩ := (hasSub_iff k t2).mp h
          exact ⟨c :: t1, t3, rfl, h2⟩
      · rintro ⟨t1, t3, h1, h2⟩
        match t1 with
        | [] =>
            left
            simp only [List.nil_append] at h1
            rw [h1]
            exact h2
        | c1 :: t1' =>
            right
            injection h1 with hc ht
            exact (hasSub_iff k t2).mpr ⟨t1', t3, ht, h2⟩

/-- For a wildcard-free keyword, the `LIKE` pattern `'%' + kw + '%'`
matches a string exactly when the lower-cased keyword occurs inside the
lower-cased string. -/
theorem likeMatch_pattern_eq_hasSub (kw t : List Char) (hwf : wildcardFree kw = true) :
    likeMatch ('%' :: (kw ++ ['%'])) t = hasSub (lowerList kw) (lowerList t) := by
  apply bool_eq_of_iff
  rw [likeMatch_pct_split, hasSub_iff]
  constructor
  · rintro ⟨t1, t2, rfl, h2⟩
    obtain ⟨s, t3, rfl, hs⟩ := (likeMatch_lit_pct kw hwf t2).mp h2
    refine ⟨lowerList t1, lowerList (s ++ t3), by simp [lowerList], ?_⟩
    rw [leadsWith_iff]
    exact ⟨lowerList t3, by simpa [lowerList] using congrArg (fun l => l ++ lowerList t3) hs⟩
  · rintro ⟨u1, u2, h1, h2⟩
    rw [leadsWith_iff] at h2
    obtain ⟨u3, rfl⟩ := h2
    unfold lowerList at h1
    obtain ⟨t1, rest, rfl, hm1, hm2⟩ := List.map_eq_append_iff.mp h1
    obtain ⟨s, t3, rfl, hs, ht3⟩ := List.map_eq_append_iff.mp hm2
    refine ⟨t1, s ++ t3, rfl, ?_⟩
    rw [likeMatch_lit_pct kw hwf]
    exact ⟨s, t3, rfl, hs⟩

/-- C7 (amended): for every keyword free of the `LIKE` wildcard characters
`%` and `_`, `search_by_keyword` returns exactly the `(id, text)` pairs —
in stored order, no ranking — of the entries whose `cleaned_text` contains
the keyword as a case-insensitive substring. -/
theorem search_tweets_by_keyword_spec (rows : List Entry) (kw : List Char)
    (hwf : wildcardFree kw = true) :
    search_tweets_by_keyword rows kw
      = (rows.filter (fun r => hasSub (lowerList kw) (lowerList r.cleaned_text))).map
          (fun r => (r.id, r.text)) := by
  unfold search_tweets_by_keyword
  congr 1
  apply List.filter_congr
  intro r _
  exact likeMatch_pattern_eq_hasSub kw r.cleaned_text hwf

/-- The stored row used by the keyword-search examples: cleaned text
`"this is dope content"`. -/
def entryDope : Entry :=
  ⟨1, "raw dope tweet".toList, "this is dope content".toList, ⟨0, 0, 0, 0⟩,
    "positive", "x".toList, "20180101".toList, [1]⟩

/-- C7 counterexample: the keyword is passed into a `LIKE` pattern, so its
wildcard characters keep their meaning. The keyword `"d_pe"` is not a
substring of the cleaned text `"this is dope content"`, yet the search
returns the entry, because `_` matches the `o`. -/
theorem search_wildcard_counterexample :
    search_tweets_by_keyword [entryDope] ("d_pe".toList)
        = [(entryDope.id, entryDope.text)] ∧
    hasSub (lowerList ("d_pe".toList)) (lowerList entryDope.cleaned_text) = false := by
  constructor
  · have hm : likeMatch ('%' :: ("d_pe".toList ++ ['%'])) entryDope.cleaned_text = true := by
      simp [likeMatch, entryDope, lowerChar]
    unfold search_tweets_by_keyword
    simp only [List.filter, hm]
    rfl
  · decide

/-- Witness for `search_tweets_by_keyword_spec`: searching the keyword
`"DOPE"` over a store whose single entry has cleaned text
`"this is dope content"` returns exactly that entry's id and raw text. -/
theorem search_tweets_by_keyword_spec_witness :
    wildcardFree ("DOPE".toList) = true ∧
    search_tweets_by_keyword [entryDope] ("DOPE".toList)
      = [(entryDope.id, entryDope.text)] := by
  have hwf : wildcardFree ("DOPE".toList) = true := by decide
  refine ⟨hwf, ?_⟩
  rw [search_tweets_by_keyword_spec [entryDope] ("DOPE".toList) hwf]
  decide

/-! ### Claim C6 — similarity ranking -/

theorem cosSign_eq_one_iff (x : ℚ × ℚ) : cosSign x = 1 ↔ (0 < x.2 ∧ 0 < x.1) := by
  unfold cosSign
  split_ifs with h1 h2
  · simp only [show (0 : ℤ) ≠ 1 from by decide, false_iff, not_and]
    intro ha hb
    rcases h1 with h | h
    · exact absurd ha (by simpa using h)
    · exact absurd hb (by simp [h])
  · push_neg at h1
    simp only [true_iff]
    exact ⟨h1.1, h2⟩
  · simp only [show (-1 : ℤ) ≠ 1 from by decide, false_iff, not_and]
    intro _ hb
    exact absurd hb h2

theorem cosSign_eq_neg_one_iff (x : ℚ × ℚ) : cosSign x = -1 ↔ (0 < x.2 ∧ x.1 < 0) := by
  unfold cosSign
  split_ifs with h1 h2
  · simp only [show (0 : ℤ) ≠ -1 from by decide, false_iff, not_and]
    intro ha hb
    rcases h1 with h | h
    · exact absurd ha (by simpa using h)
    · exact absurd h (by simp [ne_of_lt hb])
  · simp only [show (1 : ℤ) ≠ -1 from by decide, false_iff, not_and]
    intro _ hb
    exact absurd h2 (by simp [le_of_lt hb])
  · push_neg at h1
    simp only [true_iff]
    exact ⟨h1.1, lt_of_le_of_ne (le_of_not_lt h2) h1.2⟩

theorem cosLe_refl (x : ℚ × ℚ) : cosLe x x = true := by
  unfold cosLe
  rw [if_neg (lt_irrefl _), if_neg (lt_irrefl _)]
  split_ifs <;> simp

theorem cosLe_total (x y : ℚ × ℚ) : cosLe x y = true ∨ cosLe y x = true := by
  unfold cosLe
  rcases lt_trichotomy (cosSign x) (cosSign y) with h | h | h
  · left
    rw [if_pos h]
  · rw [h]
    rw [if_neg (lt_irrefl _), if_neg (lt_irrefl _), if_neg (lt_irrefl _), if_neg (lt_irrefl _)]
    split_ifs with h1 h2
    · rcases le_total (x.1 ^ 2 * y.2) (y.1 ^ 2 * x.2) with h3 | h3
      · left; simpa using h3
      · right; simpa using h3
    · rcases le_total (y.1 ^ 2 * x.2) (x.1 ^ 2 * y.2) with h3 | h3
      · left; simpa using h3
      · right; simpa using h3
    · exact Or.inl rfl
  · right
    rw [if_pos h]

theorem cosLe_sign_le {x y : ℚ × ℚ} (h : cosLe x y = true) : cosSign x ≤ cosSign y := by
  unfold cosLe at h
  by_cases h1 : cosSign x < cosSign y
  · exact le_of_lt h1
  · rw [if_neg h1] at h
    by_cases h2 : cosSign y < cosSign x
    · rw [if_pos h2] at h
      cases h
    · omega

theorem cosLe_trans {x y z : ℚ × ℚ} (hxy : cosLe x y = true) (hyz : cosLe y z = true) :
    cosLe x z = true := by
  have hsxy := cosLe_sign_le hxy
  have hsyz := cosLe_sign_le hyz
  unfold cosLe
  by_cases hxz : cosSign x < cosSign z
  · rw [if_pos hxz]
  · have hxz2 : cosSign x = cosSign z := by omega
    have hxy2 : cosSign x = cosSign y := by omega
    rw [if_neg hxz, if_neg (by omega)]
    unfold cosLe at hxy hyz
    rw [if_neg (by omega), if_neg (by omega)] at hxy
    rw [if_neg (by omega), if_neg (by omega)] at hyz
    split_ifs with h1 h2
    · -- all signs are 1: positive numerators and norm products
      have hy1 : cosSign y = 1 := by omega
      have hx := (cosSign_eq_one_iff x).mp h1
      have hy := (cosSign_eq_one_iff y).mp hy1
      have hz := (cosSign_eq_one_iff z).mp (by omega)
      rw [if_pos h1] at hxy
      rw [if_pos hy1] at hyz
      have e1 : x.1 ^ 2 * y.2 ≤ y.1 ^ 2 * x.2 := by simpa using hxy
      have e2 : y.1 ^ 2 * z.2 ≤ z.1 ^ 2 * y.2 := by simpa using hyz
      have a3 : x.1 ^ 2 * z.2 * y.2 ≤ z.1 ^ 2 * x.2 * y.2 := by
        nlinarith [hy.1, mul_le_mul_of_nonneg_right e1 (le_of_lt hz.1),
          mul_le_mul_of_nonneg_right e2 (le_of_lt hx.1)]
      simpa using (mul_le_mul_right hy.1).mp a3
    · -- all signs are -1
      have hy1 : cosSign y = -1 := by omega
      have hx := (cosSign_eq_neg_one_iff x).mp h2
      have hy := (cosSign_eq_neg_one_iff y).mp hy1
      have hz := (cosSign_eq_neg_one_iff z).mp (by omega)
      rw [if_neg (by omega), if_pos h2] at hxy
      rw [if_neg (by omega), if_pos hy1] at hyz
      have e1 : y.1 ^ 2 * x.2 ≤ x.1 ^ 2 * y.2 := by simpa using hxy
      have e2 : z.1 ^ 2 * y.2 ≤ y.1 ^ 2 * z.2 := by simpa using hyz
      have a3 : z.1 ^ 2 * x.2 * y.2 ≤ x.1 ^ 2 * z.2 * y.2 := by
        nlinarith [hy.1, mul_le_mul_of_nonneg_right e1 (le_of_lt hz.1),
          mul_le_mul_of_nonneg_right e2 (le_of_lt hx.1)]
      simpa using (mul_le_mul_right hy.1).mp a3
    · rfl

instance (q : List ℚ) : IsTotal SimRow (simGe q) :=
  ⟨fun a b => cosLe_total (simPair q b.embedding) (simPair q a.embedding)⟩

instance (q : List ℚ) : IsTrans SimRow (simGe q) :=
  ⟨fun _ _ _ hab hbc => cosLe_trans hbc hab⟩

/-- The ranking relation lifted to index-carrying rows (used to express
the stable-tie property of the ranking). -/
def simGePair (q : List ℚ) (a b : ℕ × SimRow) : Prop := simGe q a.2 b.2

instance (q : List ℚ) : DecidableRel (simGePair q) := fun a b => by
  unfold simGePair; infer_instance

instance (q : List ℚ) : IsTotal (ℕ × SimRow) (simGePair q) :=
  ⟨fun a b => cosLe_total (simPair q b.2.embedding) (simPair q a.2.embedding)⟩

instance (q : List ℚ) : IsTrans (ℕ × SimRow) (simGePair q) :=
  ⟨fun _ _ _ hab hbc => cosLe_trans hbc hab⟩

/-- Inserting an element into a list does not disturb, for any class of
mutually related elements, the subsequence of that class: the element is
inserted before no member of its own class that was already present. -/
theorem filter_orderedInsert {α : Type} (r : α → α → Prop) [DecidableRel r] (p : α → Bool)
    (a : α) (l : List α) (hcl : p a = true → ∀ b, p b = true → r a b) :
    (List.orderedInsert r a l).filter p = ((a :: l).filter p) := by
  induction l with
  | nil => rfl
  | cons b t ih =>
      rw [List.orderedInsert]
      by_cases hr : r a b
      · rw [if_pos hr]
      · rw [if_neg hr]
        by_cases hpa : p a = true
        · have hpb : p b = false := by
            by_cases hpb2 : p b = true
            · exact absurd (hcl hpa b hpb2) hr
            · revert hpb2; cases p b <;> simp
          simp [List.filter_cons, hpa, hpb, ih]
        · have hpa2 : p a = false := by revert hpa; cases p a <;> simp
          simp [List.filter_cons, hpa2, ih]

/-- The stable sort preserves, for any class of mutually related elements,
the original subsequence of that class. -/
theorem filter_insertionSort {α : Type} (r : α → α → Prop) [DecidableRel r] (p : α → Bool)
    (hcl : ∀ a, p a = true → ∀ b, p b = true → r a b) :
    ∀ l : List α, (List.insertionSort r l).filter p = l.filter p
  | [] => rfl
  | a :: t => by
      rw [List.insertionSort, filter_orderedInsert r p a _ (hcl a)]
      simp [List.filter_cons, filter_insertionSort r p hcl t]

/-- If every similarity class of a list (elements whose keys compare equal
both ways under `cosLe`) is pairwise `S`-related in order, then any two
elements with equal keys are `S`-related in order. -/
theorem pairwise_of_filter_classes {α : Type} (k : α → ℚ × ℚ) (S : α → α → Prop) :
    ∀ l : List α,
    (∀ v : ℚ × ℚ, (l.filter (fun x => cosLe (k x) v && cosLe v (k x))).Pairwise S) →
    l.Pairwise (fun x y => (cosLe (k x) (k y) = true ∧ cosLe (k y) (k x) = true) → S x y)
  | [], _ => List.Pairwise.nil
  | a :: t, h => by
      constructor
      · intro b hb hval
        have ha := h (k a)
        rw [List.filter_cons] at ha
        simp only [cosLe_refl, Bool.and_self, if_true] at ha
        have hpb : (cosLe (k b) (k a) && cosLe (k a) (k b)) = true := by
          simp only [Bool.and_eq_true]
          exact ⟨hval.2, hval.1⟩
        have hbmem : b ∈ t.filter (fun x => cosLe (k x) (k a) && cosLe (k a) (k x)) :=
          List.mem_filter.mpr ⟨hb, hpb⟩
        exact (List.pairwise_cons.mp ha).1 b hbmem
      · apply pairwise_of_filter_classes k S t
        intro v
        have hv := h v
        rw [List.filter_cons] at hv
        by_cases hpa : (cosLe (k a) v && cosLe v (k a)) = true
        · simp only [hpa, if_true] at hv
          exact (List.pairwise_cons.mp hv).2
        · have hpa2 : (cosLe (k a) v && cosLe v (k a)) = false := by
            revert hpa; cases (cosLe (k a) v && cosLe v (k a)) <;> simp
          simp only [hpa2, if_false] at hv
          exact hv

/-- The index components of an enumerated list increase along the list. -/
theorem enum_pairwise_lt {α : Type} (l : List α) :
    l.enum.Pairwise (fun x y => x.1 < y.1) := by
  rw [List.pairwise_iff_getElem]
  intro i j hi hj hij
  simp only [List.getElem_enum]
  simpa using hij

/-- C6: with `n` not exceeding the corpus size, `top_n_similar` returns
exactly `n` texts, namely the texts of the first `n` rows of a ranking of
the whole (indexed) corpus that is descending in cosine similarity to the
query (`simGePair`, i.e. `cosLe` on the exact similarity pairs), breaks
similarity ties by original corpus position (stable selection), and whose
first `n` rows dominate all remaining rows in similarity. -/
theorem get_top_n_similar_texts_spec (model : List Char → List ℚ) (df : List SimRow)
    (input_text : List Char) (top_n : ℕ) (hn : top_n ≤ df.length) :
    (get_top_n_similar_texts model df input_text top_n).length = top_n ∧
    ∃ ranked : List (ℕ × SimRow),
      ranked.Perm df.enum ∧
      get_top_n_similar_texts model df input_text top_n
        = (ranked.take top_n).map (fun x => x.2.text) ∧
      ranked.Pairwise (simGePair (model input_text)) ∧
      ranked.Pairwise (fun a b =>
        (simGePair (model input_text) a b ∧ simGePair (model input_text) b a) → a.1 < b.1) ∧
      (∀ a ∈ ranked.take top_n, ∀ b ∈ ranked.drop top_n,
        simGePair (model input_text) a b) := by
  constructor
  · simp only [get_top_n_similar_texts, List.length_map, List.length_take,
      List.length_insertionSort]
    omega
  · refine ⟨List.insertionSort (simGePair (model input_text)) df.enum,
      List.perm_insertionSort _ _, ?_, List.sorted_insertionSort _ _, ?_, ?_⟩
    · have hmapeq : (List.insertionSort (simGePair (model input_text)) df.enum).map Prod.snd
          = List.insertionSort (simGe (model input_text)) df := by
        calc (List.insertionSort (simGePair (model input_text)) df.enum).map Prod.snd
            = (df.enum.map Prod.snd).insertionSort (simGe (model input_text)) :=
              List.map_insertionSort _ _ Prod.snd df.enum (fun a _ b _ => Iff.rfl)
          _ = List.insertionSort (simGe (model input_text)) df := by rw [List.enum_map_snd]
      show ((List.insertionSort (simGe (model input_text)) df).take top_n).map
          (fun r => r.text) = _
      rw [← hmapeq, ← List.map_take, List.map_map]
      rfl
    · have hcls := pairwise_of_filter_classes
        (fun x : ℕ × SimRow => simPair (model input_text) x.2.embedding)
        (fun a b => a.1 < b.1)
        (List.insertionSort (simGePair (model input_text)) df.enum) ?hfilt
      · exact hcls.imp (fun h hab => h ⟨hab.2, hab.1⟩)
      case hfilt =>
        intro v
        rw [filter_insertionSort]
        · exact (enum_pairwise_lt df).sublist (List.filter_sublist _)
        · intro a hpa b hpb
          simp only [Bool.and_eq_true] at hpa hpb
          exact cosLe_trans hpb.1 hpa.2
    · intro a ha b hb
      have hp : (List.insertionSort (simGePair (model input_text)) df.enum).Pairwise
          (simGePair (model input_text)) :=
        List.sorted_insertionSort (simGePair (model input_text)) df.enum
      rw [← List.take_append_drop top_n
        (List.insertionSort (simGePair (model input_text)) df.enum)] at hp
      exact (List.pairwise_append.mp hp).2.2 a ha b hb

/-- Corpus row with embedding `[1, 0]` for the similarity witness. -/
def simT1 : SimRow := ⟨"t1".toList, [1, 0]⟩

/-- Corpus row with embedding `[0, 1]` for the similarity witness. -/
def simT2 : SimRow := ⟨"t2".toList, [0, 1]⟩

/-- Corpus row with embedding `[0.9, 0.1]` for the similarity witness. -/
def simT3 : SimRow := ⟨"t3".toList, [9/10, 1/10]⟩

/-- Witness for `get_top_n_similar_texts_spec`, at the spec's concrete
example: stored embeddings `[1,0]`, `[0,1]`, `[0.9,0.1]` and query
embedding `[1,0]`. With `n = 1` the `[1,0]` entry is returned; if the
caller excludes that entry, the `[0.9,0.1]` entry is returned; the `[0,1]`
entry is returned in neither case. -/
theorem get_top_n_similar_texts_spec_witness :
    (1 ≤ ([simT1, simT2, simT3] : List SimRow).length ∧
      (get_top_n_similar_texts (fun _ => [1, 0]) [simT1, simT2, simT3] ("q".toList) 1).length
        = 1) ∧
    get_top_n_similar_texts (fun _ => [1, 0]) [simT1, simT2, simT3] ("q".toList) 1
      = ["t1".toList] ∧
    get_top_n_similar_texts (fun _ => [1, 0]) [simT2, simT3] ("q".toList) 1
      = ["t3".toList] := by
  refine ⟨⟨by decide, ?_⟩, ?_, ?_⟩
  · exact (get_top_n_similar_texts_spec (fun _ => [1, 0]) [simT1, simT2, simT3]
      ("q".toList) 1 (by decide)).1
  · norm_num [get_top_n_similar_texts, List.insertionSort, List.orderedInsert,
      simGe, simPair, dotQ, norm2Q, cosLe, cosSign, simT1, simT2, simT3]
  · norm_num [get_top_n_similar_texts, List.insertionSort, List.orderedInsert,
      simGe, simPair, dotQ, norm2Q, cosLe, cosSign, simT1, simT2, simT3]

theorem cosSign_cases (x : ℚ × ℚ) : cosSign x = -1 ∨ cosSign x = 0 ∨ cosSign x = 1 := by
  unfold cosSign
  split_ifs <;> simp

theorem cosValue_eq_zero_of_sign {x : ℚ × ℚ} (h : cosSign x = 0) : cosValue x = 0 := by
  unfold cosValue
  split_ifs with h2
  · rfl
  · have hx1 : x.1 = 0 := by
      unfold cosSign at h
      split_ifs at h with h3 h4
      · rcases h3 with h3 | h3
        · exact absurd h3 h2
        · exact h3
      · exact absurd h (by decide)
    rw [hx1]
    simp

theorem cosValue_pos_of_sign {x : ℚ × ℚ} (h : cosSign x = 1) : 0 < cosValue x := by
  have hx := (cosSign_eq_one_iff x).mp h
  unfold cosValue
  rw [if_neg (by push_neg; exact_mod_cast hx.1)]
  exact div_pos (by exact_mod_cast hx.2) (Real.sqrt_pos.mpr (by exact_mod_cast hx.1))

theorem cosValue_neg_of_sign {x : ℚ × ℚ} (h : cosSign x = -1) : cosValue x < 0 := by
  have hx := (cosSign_eq_neg_one_iff x).mp h
  unfold cosValue
  rw [if_neg (by push_neg; exact_mod_cast hx.1)]
  exact div_neg_of_neg_of_pos (by exact_mod_cast hx.2)
    (Real.sqrt_pos.mpr (by exact_mod_cast hx.1))

theorem cosValue_lt_of_sign_lt {x y : ℚ × ℚ} (h : cosSign x < cosSign y) :
    cosValue x < cosValue y := by
  rcases cosSign_cases x with hx | hx | hx <;> rcases cosSign_cases y with hy | hy | hy <;>
    rw [hx, hy] at h
  all_goals first
    | exact absurd h (by decide)
    | (first
        | exact lt_of_lt_of_le (cosValue_neg_of_sign hx)
            (le_of_eq (cosValue_eq_zero_of_sign hy).symm)
        | exact lt_trans (cosValue_neg_of_sign hx) (cosValue_pos_of_sign hy)
        | exact lt_of_le_of_lt (le_of_eq (cosValue_eq_zero_of_sign hx))
            (cosValue_pos_of_sign hy))

/-- For positive-sign pairs, the cross-multiplied squared comparison is the
value comparison. -/
theorem cosValue_le_pos {x y : ℚ × ℚ} (hx : cosSign x = 1) (hy : cosSign y = 1) :
    (cosValue x ≤ cosValue y ↔ x.1 ^ 2 * y.2 ≤ y.1 ^ 2 * x.2) := by
  have hx2 := (cosSign_eq_one_iff x).mp hx
  have hy2 := (cosSign_eq_one_iff y).mp hy
  have hx2r : (0 : ℝ) < (x.2 : ℝ) := by exact_mod_cast hx2.1
  have hy2r : (0 : ℝ) < (y.2 : ℝ) := by exact_mod_cast hy2.1
  have hx1r : (0 : ℝ) < (x.1 : ℝ) := by exact_mod_cast hx2.2
  have hy1r : (0 : ℝ) < (y.1 : ℝ) := by exact_mod_cast hy2.2
  unfold cosValue
  rw [if_neg (by push_neg; exact_mod_cast hx2.1), if_neg (by push_neg; exact_mod_cast hy2.1)]
  rw [div_le_div_iff₀ (Real.sqrt_pos.mpr hx2r) (Real.sqrt_pos.mpr hy2r)]
  rw [show ((x.1 : ℝ) * Real.sqrt y.2 ≤ (y.1 : ℝ) * Real.sqrt x.2
      ↔ ((x.1 : ℝ) * Real.sqrt y.2) ^ 2 ≤ ((y.1 : ℝ) * Real.sqrt x.2) ^ 2) from
    (pow_le_pow_iff_left₀ (by positivity) (by positivity) (by decide)).symm]
  rw [mul_pow, mul_pow, Real.sq_sqrt (le_of_lt hy2r), Real.sq_sqrt (le_of_lt hx2r)]
  constructor
  · intro h
    exact_mod_cast h
  · intro h
    exact_mod_cast h

/-- For negative-sign pairs, the comparison is reversed. -/
theorem cosValue_le_neg {x y : ℚ × ℚ} (hx : cosSign x = -1) (hy : cosSign y = -1) :
    (cosValue x ≤ cosValue y ↔ y.1 ^ 2 * x.2 ≤ x.1 ^ 2 * y.2) := by
  have hx2 := (cosSign_eq_neg_one_iff x).mp hx
  have hy2 := (cosSign_eq_neg_one_iff y).mp hy
  have hx2r : (0 : ℝ) < (x.2 : ℝ) := by exact_mod_cast hx2.1
  have hy2r : (0 : ℝ) < (y.2 : ℝ) := by exact_mod_cast hy2.1
  have hx1r : (x.1 : ℝ) < 0 := by exact_mod_cast hx2.2
  have hy1r : (y.1 : ℝ) < 0 := by exact_mod_cast hy2.2
  have ha : (0 : ℝ) < Real.sqrt (x.2 : ℝ) := Real.sqrt_pos.mpr hx2r
  have hb : (0 : ℝ) < Real.sqrt (y.2 : ℝ) := Real.sqrt_pos.mpr hy2r
  have ha2 : Real.sqrt (x.2 : ℝ) ^ 2 = (x.2 : ℝ) := Real.sq_sqrt hx2r.le
  have hb2 : Real.sqrt (y.2 : ℝ) ^ 2 = (y.2 : ℝ) := Real.sq_sqrt hy2r.le
  unfold cosValue
  rw [if_neg (by push_neg; exact_mod_cast hx2.1), if_neg (by push_neg; exact_mod_cast hy2.1)]
  rw [div_le_div_iff₀ ha hb]
  constructor
  · intro h
    have hgoal : (y.1 : ℝ) ^ 2 * (x.2 : ℝ) ≤ (x.1 : ℝ) ^ 2 * (y.2 : ℝ) := by
      have e1 : (0 : ℝ) ≤ y.1 * Real.sqrt (x.2 : ℝ) - x.1 * Real.sqrt (y.2 : ℝ) := by
        linarith
      have e2 : (y.1 : ℝ) * Real.sqrt (x.2 : ℝ) + x.1 * Real.sqrt (y.2 : ℝ) ≤ 0 := by
        nlinarith [mul_neg_of_neg_of_pos hy1r ha, mul_neg_of_neg_of_pos hx1r hb]
      nlinarith [e1, e2, ha2, hb2]
    exact_mod_cast hgoal
  · intro h
    have h2 : (y.1 : ℝ) ^ 2 * (x.2 : ℝ) ≤ (x.1 : ℝ) ^ 2 * (y.2 : ℝ) := by exact_mod_cast h
    by_contra hc
    push_neg at hc
    have e1 : (0 : ℝ) < x.1 * Real.sqrt (y.2 : ℝ) - y.1 * Real.sqrt (x.2 : ℝ) := by
      linarith
    have e2 : (x.1 : ℝ) * Real.sqrt (y.2 : ℝ) + y.1 * Real.sqrt (x.2 : ℝ) < 0 := by
      nlinarith [mul_neg_of_neg_of_pos hy1r ha, mul_neg_of_neg_of_pos hx1r hb]
    nlinarith [e1, e2, ha2, hb2, h2]

/-- `cosLe` computes exactly the ordering of the represented real cosine
values. -/
theorem cosLe_iff_cosValue {x y : ℚ × ℚ} :
    cosLe x y = true ↔ cosValue x ≤ cosValue y := by
  unfold cosLe
  rcases lt_trichotomy (cosSign x) (cosSign y) with h | h | h
  · rw [if_pos h]
    exact iff_of_true rfl (le_of_lt (cosValue_lt_of_sign_lt h))
  · rw [if_neg (by omega), if_neg (by omega)]
    rcases cosSign_cases x with hx | hx | hx
    · rw [if_neg (by omega), if_pos hx]
      rw [cosValue_le_neg hx (by omega)]
      simp
    · rw [if_neg (by omega), if_neg (by omega)]
      exact iff_of_true rfl (le_of_eq (by
        rw [cosValue_eq_zero_of_sign hx, cosValue_eq_zero_of_sign (by omega)]))
    · rw [if_pos hx]
      rw [cosValue_le_pos hx (by omega)]
      simp
  · rw [if_neg (by omega), if_pos h]
    exact iff_of_false (by decide) (not_le.mpr (cosValue_lt_of_sign_lt h))

/-! ### Claim C9 — serialization round trip -/

theorem charToDigit_digitCh : ∀ d < 10, charToDigit (digitCh d) = some d := by
  decide

theorem digitCh_isDigit : ∀ d < 10, isDigitChar (digitCh d) = true := by
  decide

theorem parseDigits_append {l1 l2 : List Char} {d1 d2 : List ℕ}
    (h1 : parseDigits l1 = some d1) (h2 : parseDigits l2 = some d2) :
    parseDigits (l1 ++ l2) = some (d1 ++ d2) := by
  induction l1 generalizing d1 with
  | nil =>
      simp only [parseDigits, Option.some.injEq] at h1
      subst h1
      simpa using h2
  | cons c r ih =>
      rw [parseDigits] at h1
      rw [List.cons_append, parseDigits]
      match hc : charToDigit c with
      | none => rw [hc] at h1; cases h1
      | some d =>
          rw [hc] at h1
          match hr : parseDigits r with
          | none => rw [hr] at h1; cases h1
          | some ds =>
              rw [hr] at h1
              simp only [Option.some.injEq] at h1
              subst h1
              rw [ih hr]
              rfl

theorem parseDigits_map_digitCh : ∀ ds : List ℕ, (∀ d ∈ ds, d < 10) →
    parseDigits (ds.map digitCh) = some ds
  | [], _ => rfl
  | d :: ds, h => by
      rw [List.map_cons, parseDigits,
        charToDigit_digitCh d (h d (List.mem_cons_self _ _)),
        parseDigits_map_digitCh ds (fun x hx => h x (List.mem_cons_of_mem _ hx))]

theorem digitsMSB_lt (a : ℕ) : ∀ d ∈ digitsMSB a, d < 10 := by
  intro d hd
  unfold digitsMSB at hd
  split_ifs at hd with h
  · simp only [List.mem_singleton] at hd
    omega
  · exact Nat.digits_lt_base (by norm_num) (List.mem_reverse.mp hd)

theorem valOfDigits_digitsMSB (a : ℕ) : valOfDigits (digitsMSB a) = a := by
  unfold valOfDigits digitsMSB
  split_ifs with h
  · subst h
    rfl
  · rw [List.reverse_reverse]
    exact Nat.ofDigits_digits 10 a

theorem valOfDigits_append (d1 d2 : List ℕ) :
    valOfDigits (d1 ++ d2) = valOfDigits d2 + 10 ^ d2.length * valOfDigits d1 := by
  unfold valOfDigits
  rw [List.reverse_append, Nat.ofDigits_append, List.length_reverse]

theorem valOfDigits_replicate_zero (z : ℕ) : valOfDigits (List.replicate z 0) = 0 := by
  unfold valOfDigits
  rw [List.reverse_replicate]
  induction z with
  | zero => rfl
  | succ n ih =>
      simp [List.replicate_succ, Nat.ofDigits_cons, ih]

theorem parseDigits_replicate_zero_char (z : ℕ) :
    parseDigits (List.replicate z '0') = some (List.replicate z 0) := by
  induction z with
  | zero => rfl
  | succ n ih =>
      rw [List.replicate_succ, List.replicate_succ, parseDigits, ih]
      rfl

theorem parseDigits_length : ∀ {l : List Char} {ds : List ℕ},
    parseDigits l = some ds → ds.length = l.length
  | [], ds, h => by
      simp only [parseDigits, Option.some.injEq] at h
      subst h
      rfl
  | c :: r, ds, h => by
      rw [parseDigits] at h
      match hc : charToDigit c with
      | none => rw [hc] at h; cases h
      | some d =>
          rw [hc] at h
          match hr : parseDigits r with
          | none => rw [hr] at h; cases h
          | some ds2 =>
              rw [hr] at h
              simp only [Option.some.injEq] at h
              subst h
              simp [parseDigits_length hr]

theorem parseDigits_take : ∀ {l : List Char} {ds : List ℕ} (j : ℕ),
    parseDigits l = some ds →
    parseDigits (l.take j) = some (ds.take j) ∧ parseDigits (l.drop j) = some (ds.drop j)
  | l, ds, 0, h => ⟨by simp [parseDigits], by simpa using h⟩
  | [], ds, j + 1, h => by
      simp only [parseDigits, Option.some.injEq] at h
      subst h
      simp [parseDigits]
  | c :: r, ds, j + 1, h => by
      rw [parseDigits] at h
      match hc : charToDigit c with
      | none => rw [hc] at h; cases h
      | some d =>
          rw [hc] at h
          match hr : parseDigits r with
          | none => rw [hr] at h; cases h
          | some ds2 =>
              rw [hr] at h
              simp only [Option.some.injEq] at h
              subst h
              have := parseDigits_take j hr
              constructor
              · rw [List.take_succ_cons, parseDigits, hc, this.1]
                rfl
              · simpa using this.2

theorem printNat_parse (a : ℕ) : parseDigits (printNat a) = some (digitsMSB a) :=
  parseDigits_map_digitCh (digitsMSB a) (digitsMSB_lt a)

theorem printNat_chars (a : ℕ) : ∀ c ∈ printNat a, isDigitChar c = true := by
  intro c hc
  unfold printNat at hc
  obtain ⟨d, hd, rfl⟩ := List.mem_map.mp hc
  exact digitCh_isDigit d (digitsMSB_lt a d hd)

theorem printNat_ne_nil (a : ℕ) : printNat a ≠ [] := by
  unfold printNat digitsMSB
  split_ifs with h
  · simp
  · have hne : Nat.digits 10 a ≠ [] := Nat.digits_ne_nil_iff_ne_zero.mpr h
    simp [hne]

theorem takeWhile_append_cons {p : Char → Bool} {l1 l2 : List Char} {x : Char}
    (h1 : ∀ c ∈ l1, p c = true) (h2 : p x = false) :
    (l1 ++ x :: l2).takeWhile p = l1 ∧ (l1 ++ x :: l2).dropWhile p = x :: l2 := by
  induction l1 with
  | nil =>
      rw [List.nil_append]
      constructor
      · rw [List.takeWhile_cons, h2]
        simp
      · rw [List.dropWhile_cons, h2]
        simp
  | cons c r ih =>
      have hc := h1 c (List.mem_cons_self _ _)
      have ih2 := ih (fun d hd => h1 d (List.mem_cons_of_mem _ hd))
      rw [List.cons_append]
      constructor
      · rw [List.takeWhile_cons, hc]
        simp only [if_true, ih2.1]
      · rw [List.dropWhile_cons, hc]
        simp only [if_true, ih2.2]

theorem takeWhile_eq_self_of_all {p : Char → Bool} {l : List Char}
    (h : ∀ c ∈ l, p c = true) :
    l.takeWhile p = l ∧ l.dropWhile p = [] := by
  induction l with
  | nil => exact ⟨rfl, rfl⟩
  | cons c r ih =>
      have hc := h c (List.mem_cons_self _ _)
      have ih2 := ih (fun d hd => h d (List.mem_cons_of_mem _ hd))
      constructor
      · rw [List.takeWhile_cons, hc]
        simp only [if_true, ih2.1]
      · rw [List.dropWhile_cons, hc]
        simp only [if_true, ih2.2]

theorem isDigitChar_ne (c : Char) (h : isDigitChar c = true) :
    c ≠ '.' ∧ c ≠ ',' ∧ c ≠ ' ' ∧ c ≠ '-' := by
  refine ⟨?_, ?_, ?_, ?_⟩ <;> intro hc <;> subst hc <;> exact absurd h (by decide)

/-- The padded digit string used by `printUnsigned`. -/
def paddedDigits (a k : ℕ) : List Char :=
  List.replicate (k + 1 - (printNat a).length) '0' ++ printNat a

theorem paddedDigits_parse (a k : ℕ) :
    parseDigits (paddedDigits a k)
      = some (List.replicate (k + 1 - (printNat a).length) 0 ++ digitsMSB a) :=
  parseDigits_append (parseDigits_replicate_zero_char _) (printNat_parse a)

theorem paddedDigits_val (a k : ℕ) :
    valOfDigits (List.replicate (k + 1 - (printNat a).length) 0 ++ digitsMSB a) = a := by
  rw [valOfDigits_append, valOfDigits_replicate_zero, valOfDigits_digitsMSB]
  ring

theorem paddedDigits_chars (a k : ℕ) : ∀ c ∈ paddedDigits a k, isDigitChar c = true := by
  intro c hc
  unfold paddedDigits at hc
  rcases List.mem_append.mp hc with h | h
  · rw [List.eq_of_mem_replicate h]
    decide
  · exact printNat_chars a c h

theorem paddedDigits_length (a k : ℕ) : k + 1 ≤ (paddedDigits a k).length := by
  unfold paddedDigits
  rw [List.length_append, List.length_replicate]
  have := printNat_ne_nil a
  have : 1 ≤ (printNat a).length := by
    cases h : printNat a with
    | nil => exact absurd h (printNat_ne_nil a)
    | cons x xs => simp
  omega

theorem isEmpty_false_of_length_pos {l : List Char} (h : 0 < l.length) :
    l.isEmpty = false := by
  cases l with
  | nil => simp at h
  | cons x xs => rfl

set_option maxRecDepth 4000 in
theorem parseUnsigned_printUnsigned (a k : ℕ) :
    parseUnsigned (printUnsigned a k) = some ((a : ℚ) / 10 ^ k) := by
  have hpd : printUnsigned a k = (if k = 0 then paddedDigits a k
      else (paddedDigits a k).take ((paddedDigits a k).length - k)
        ++ '.' :: (paddedDigits a k).drop ((paddedDigits a k).length - k)) := rfl
  have hparse : parseDigits (paddedDigits a k)
      = some (List.replicate (k + 1 - (printNat a).length) 0 ++ digitsMSB a) :=
    paddedDigits_parse a k
  have hval : valOfDigits (List.replicate (k + 1 - (printNat a).length) 0 ++ digitsMSB a)
      = a := paddedDigits_val a k
  have hchars := paddedDigits_chars a k
  have hlen : k + 1 ≤ (paddedDigits a k).length := paddedDigits_length a k
  have hdslen : (List.replicate (k + 1 - (printNat a).length) 0 ++ digitsMSB a).length
      = (paddedDigits a k).length := parseDigits_length hparse
  by_cases hk : k = 0
  · subst hk
    rw [hpd, if_pos rfl]
    unfold parseUnsigned
    have hall : ∀ c ∈ paddedDigits a 0, (fun c => decide (c ≠ '.')) c = true := by
      intro c hc
      simpa using (isDigitChar_ne c (hchars c hc)).1
    obtain ⟨ht, hd⟩ := takeWhile_eq_self_of_all hall
    have hne2 : (paddedDigits a 0).isEmpty = false := by
      cases h : paddedDigits a 0 with
      | nil => rw [h] at hlen; simp at hlen
      | cons x xs => rfl
    rw [ht, hd]
    simp only [parseNatStr, hne2, hparse, hval, Option.map_some]
    norm_num
    simpa using hval
  · rw [hpd, if_neg hk]
    unfold parseUnsigned
    have hsplit := @takeWhile_append_cons
      (fun c => decide (c ≠ '.'))
      ((paddedDigits a k).take ((paddedDigits a k).length - k))
      ((paddedDigits a k).drop ((paddedDigits a k).length - k))
      '.'
      (fun c hc => by
        simpa using (isDigitChar_ne c (hchars c ((List.take_sublist _ _).mem hc))).1)
      (by decide)
    rw [hsplit.1, hsplit.2]
    have htake := parseDigits_take ((paddedDigits a k).length - k) hparse
    have htlen : ((paddedDigits a k).take ((paddedDigits a k).length - k)).length
        = (paddedDigits a k).length - k := by
      rw [List.length_take]
      omega
    have hine : ((paddedDigits a k).take ((paddedDigits a k).length - k)).isEmpty = false :=
      isEmpty_false_of_length_pos (by rw [List.length_take]; omega)
    have hfne : ((paddedDigits a k).drop ((paddedDigits a k).length - k)).isEmpty = false :=
      isEmpty_false_of_length_pos (by rw [List.length_drop]; omega)
    simp only [parseNatStr, hine, htake.1, htake.2, hfne, Option.map_some,
      Option.map_some', Bool.false_eq_true, if_false]
    have hdroplen : ((List.replicate (k + 1 - (printNat a).length) 0
        ++ digitsMSB a).drop ((paddedDigits a k).length - k)).length = k := by
      rw [List.length_drop, hdslen]
      omega
    have hsum : valOfDigits ((List.replicate (k + 1 - (printNat a).length) 0
          ++ digitsMSB a).drop ((paddedDigits a k).length - k))
        + 10 ^ k * valOfDigits ((List.replicate (k + 1 - (printNat a).length) 0
          ++ digitsMSB a).take ((paddedDigits a k).length - k)) = a := by
      have := valOfDigits_append
        ((List.replicate (k + 1 - (printNat a).length) 0
          ++ digitsMSB a).take ((paddedDigits a k).length - k))
        ((List.replicate (k + 1 - (printNat a).length) 0
          ++ digitsMSB a).drop ((paddedDigits a k).length - k))
      rw [List.take_append_drop, hval, hdroplen] at this
      omega
    rw [hdroplen]
    congr 1
    have h10 : (10 : ℚ) ^ k ≠ 0 := by positivity
    rw [eq_div_iff h10, add_mul, div_mul_cancel₀ _ h10]
    have hq : ((valOfDigits ((List.replicate (k + 1 - (printNat a).length) 0
          ++ digitsMSB a).drop ((paddedDigits a k).length - k)) : ℚ)
        + 10 ^ k * (valOfDigits ((List.replicate (k + 1 - (printNat a).length) 0
          ++ digitsMSB a).take ((paddedDigits a k).length - k)) : ℚ)) = (a : ℚ) := by
      exact_mod_cast hsum
    linarith

theorem printUnsigned_chars (a k : ℕ) :
    ∀ c ∈ printUnsigned a k, isDigitChar c = true ∨ c = '.' := by
  intro c hc
  have hpd : printUnsigned a k = (if k = 0 then paddedDigits a k
      else (paddedDigits a k).take ((paddedDigits a k).length - k)
        ++ '.' :: (paddedDigits a k).drop ((paddedDigits a k).length - k)) := rfl
  rw [hpd] at hc
  split_ifs at hc
  · exact Or.inl (paddedDigits_chars a k c hc)
  · rcases List.mem_append.mp hc with h | h
    · exact Or.inl (paddedDigits_chars a k c ((List.take_sublist _ _).mem h))
    · rcases List.mem_cons.mp h with h | h
      · exact Or.inr h
      · exact Or.inl (paddedDigits_chars a k c ((List.drop_sublist _ _).mem h))

theorem printUnsigned_head_not_dash (a k : ℕ) :
    (printUnsigned a k).take 1 ≠ "-".toList := by
  intro hcon
  have hmem : '-' ∈ printUnsigned a k := by
    have : '-' ∈ (printUnsigned a k).take 1 := by
      rw [hcon]
      exact List.mem_singleton.mpr rfl
    exact (List.take_sublist _ _).mem this
  rcases printUnsigned_chars a k '-' hmem with h | h
  · exact absurd h (by decide)
  · cases h

theorem parseNum_printNum (x : DecNum) : parseNum (printNum x) = some x.val := by
  unfold printNum parseNum DecNum.val
  by_cases hm : x.mant < 0
  · rw [if_pos hm]
    simp only [List.singleton_append]
    rw [if_pos (show List.take 1 ('-' :: printUnsigned x.mant.natAbs x.scale)
      = "-".toList from rfl)]
    simp only [List.drop_succ_cons, List.drop_zero]
    rw [parseUnsigned_printUnsigned]
    simp only [Option.map_some', Option.some.injEq]
    rw [show ((x.mant.natAbs : ℕ) : ℚ) = -(x.mant : ℚ) from by
      have hInt : (x.mant.natAbs : ℤ) = -x.mant := by omega
      rw [← Int.cast_natCast, hInt]
      push_cast
      ring]
    ring
  · rw [if_neg hm]
    simp only [List.nil_append]
    rw [if_neg (printUnsigned_head_not_dash _ _)]
    rw [parseUnsigned_printUnsigned]
    rw [show ((x.mant.natAbs : ℕ) : ℚ) = (x.mant : ℚ) from by
      have hInt : (x.mant.natAbs : ℤ) = x.mant := by omega
      rw [← Int.cast_natCast, hInt]]

theorem printNum_chars (x : DecNum) :
    ∀ c ∈ printNum x, isDigitChar c = true ∨ c = '.' ∨ c = '-' := by
  intro c hc
  unfold printNum at hc
  rcases List.mem_append.mp hc with h | h
  · split_ifs at h
    · rcases List.mem_singleton.mp h with rfl
      exact Or.inr (Or.inr rfl)
    · cases h
  · rcases printUnsigned_chars _ _ c h with h2 | h2
    · exact Or.inl h2
    · exact Or.inr (Or.inl h2)

theorem printNum_no_sep (x : DecNum) : ∀ c ∈ printNum x, c ≠ ',' ∧ c ≠ ' ' := by
  intro c hc
  rcases printNum_chars x c hc with h | h | h
  · exact ⟨(isDigitChar_ne c h).2.1, (isDigitChar_ne c h).2.2.1⟩
  · subst h
    exact ⟨by decide, by decide⟩
  · subst h
    exact ⟨by decide, by decide⟩

theorem splitComma_ne_nil : ∀ l : List Char, splitComma l ≠ []
  | [] => by simp [splitComma]
  | c :: r => by
      rw [splitComma]
      split_ifs
      · simp
      · match h : splitComma r with
        | [] => simp
        | g :: gs => simp

theorem splitComma_no_comma : ∀ {p : List Char}, (∀ c ∈ p, c ≠ ',') →
    splitComma p = [p]
  | [], _ => rfl
  | c :: r, h => by
      rw [splitComma, if_neg (h c (List.mem_cons_self _ _))]
      rw [splitComma_no_comma (fun d hd => h d (List.mem_cons_of_mem _ hd))]

theorem splitComma_append {p rest : List Char} (h : ∀ c ∈ p, c ≠ ',') :
    splitComma (p ++ ',' :: rest) = p :: splitComma rest := by
  induction p with
  | nil =>
      rw [List.nil_append, splitComma, if_pos rfl]
  | cons c r ih =>
      rw [List.cons_append, splitComma, if_neg (h c (List.mem_cons_self _ _))]
      rw [ih (fun d hd => h d (List.mem_cons_of_mem _ hd))]

theorem parseItems_space (g : List Char) (gs : List (List Char)) :
    parseItems ((' ' :: g) :: gs) = parseItems (g :: gs) := by
  rw [parseItems, parseItems]
  have : (' ' :: g).dropWhile (fun c => c = ' ') = g.dropWhile (fun c => c = ' ') := by
    rw [List.dropWhile_cons]
    simp
  rw [this]

theorem parseItems_join :
    ∀ {parts : List (List Char)} {vals : List ℚ},
    List.Forall₂ (fun p v => parseNum p = some v ∧ ∀ c ∈ p, c ≠ ',' ∧ c ≠ ' ') parts vals →
    parts ≠ [] →
    parseItems (splitComma (joinCommaSep parts)) = some vals := by
  intro parts vals hf hne
  induction hf with
  | nil => exact absurd rfl hne
  | cons hpv htail ih =>
      rename_i p v ps vs
      match ps, vs, htail with
      | [], [], _ =>
          rw [show joinCommaSep [p] = p from rfl]
          rw [splitComma_no_comma (fun c hc => (hpv.2 c hc).1)]
          rw [parseItems]
          rw [show p.dropWhile (fun c => c = ' ') = p from by
            cases p with
            | nil => rfl
            | cons c r =>
                rw [List.dropWhile_cons,
                  if_neg (by simpa using (hpv.2 c (List.mem_cons_self _ _)).2)]]
          rw [hpv.1]
          rfl
      | q :: ps2, w :: vs2, htail =>
          have hjoin : joinCommaSep (p :: q :: ps2)
              = p ++ ',' :: ' ' :: joinCommaSep (q :: ps2) := rfl
          rw [hjoin, splitComma_append (fun c hc => (hpv.2 c hc).1)]
          have ihne := ih (by simp)
          match hsc : splitComma (joinCommaSep (q :: ps2)) with
          | [] => exact absurd hsc (splitComma_ne_nil _)
          | g :: gs =>
              rw [hsc] at ihne
              rw [show splitComma (' ' :: joinCommaSep (q :: ps2))
                  = (' ' :: g) :: gs from by
                rw [splitComma, if_neg (by decide), hsc]]
              rw [parseItems]
              rw [show p.dropWhile (fun c => c = ' ') = p from by
                cases p with
                | nil => rfl
                | cons c r =>
                    rw [List.dropWhile_cons,
                      if_neg (by simpa using (hpv.2 c (List.mem_cons_self _ _)).2)]]
              rw [hpv.1, parseItems_space, ihne]

theorem printNum_ne_nil (x : DecNum) : printNum x ≠ [] := by
  unfold printNum
  intro hcon
  have h1 : printUnsigned x.mant.natAbs x.scale = [] := by
    rcases List.append_eq_nil.mp hcon with ⟨_, h⟩
    exact h
  have hpd : printUnsigned x.mant.natAbs x.scale
      = (if x.scale = 0 then paddedDigits x.mant.natAbs x.scale
        else (paddedDigits x.mant.natAbs x.scale).take
            ((paddedDigits x.mant.natAbs x.scale).length - x.scale)
          ++ '.' :: (paddedDigits x.mant.natAbs x.scale).drop
            ((paddedDigits x.mant.natAbs x.scale).length - x.scale)) := rfl
  rw [hpd] at h1
  have hlen := paddedDigits_length x.mant.natAbs x.scale
  split_ifs at h1 with hs
  · rw [h1] at hlen
    simp at hlen
  · rcases List.append_eq_nil.mp h1 with ⟨_, h⟩
    cases h

theorem forall2_printNum (v : List DecNum) :
    List.Forall₂ (fun p q => parseNum p = some q ∧ ∀ c ∈ p, c ≠ ',' ∧ c ≠ ' ')
      (v.map printNum) (v.map DecNum.val) := by
  induction v with
  | nil => exact List.Forall₂.nil
  | cons x xs ih =>
      exact List.Forall₂.cons ⟨parseNum_printNum x, printNum_no_sep x⟩ ih

/-- C9: serialization of an embedding vector round-trips exactly —
deserializing the stored JSON text of a vector of exact decimal components
recovers precisely the component values. -/
theorem deserializeVec_serializeVec (v : List DecNum) :
    deserializeVec (serializeVec v) = some (v.map DecNum.val) := by
  unfold serializeVec deserializeVec
  have hbra : (('[' :: (joinCommaSep (v.map printNum) ++ [']'])).take 1 = "[".toList ∧
      ('[' :: (joinCommaSep (v.map printNum) ++ [']'])).getLast? = some ']') := by
    constructor
    · rfl
    · rw [show ('[' :: (joinCommaSep (v.map printNum) ++ [']']))
          = ('[' :: joinCommaSep (v.map printNum)) ++ [']'] from by simp]
      exact List.getLast?_concat _
  rw [if_pos hbra]
  have hcont : (('[' :: (joinCommaSep (v.map printNum) ++ [']'])).drop 1).dropLast
      = joinCommaSep (v.map printNum) := by
    simp only [List.drop_succ_cons, List.drop_zero]
    exact List.dropLast_concat
  simp only [hcont]
  match v with
  | [] => rfl
  | x :: xs =>
      have hjoin_ne : joinCommaSep ((x :: xs).map printNum) ≠ [] := by
        rw [List.map_cons]
        match xs with
        | [] =>
            simp only [List.map_nil]
            exact printNum_ne_nil x
        | y :: ys =>
            rw [show joinCommaSep (printNum x :: (y :: ys).map printNum)
                = printNum x ++ ',' :: ' ' :: joinCommaSep ((y :: ys).map printNum) from rfl]
            simp
      have hempty : (joinCommaSep ((x :: xs).map printNum)).isEmpty = false := by
        cases h : joinCommaSep ((x :: xs).map printNum) with
        | nil => exact absurd h hjoin_ne
        | cons a b => rfl
      rw [if_neg (by rw [hempty]; decide)]
      exact parseItems_join (forall2_printNum (x :: xs)) (by simp)

/-! ### Claim C10 — self-exclusion in the similarity endpoint -/

/-- C10: whenever the endpoint succeeds, every returned text is the text of
a stored row whose id differs from the queried id: the candidate pool
ranked for similarity is built from the rows `WHERE id != ?` only, so the
queried entry itself is never among the ranked rows. -/
theorem top_n_similar_texts_excludes_self (model : List Char → List ℚ)
    (rows : List Entry) (id top_n : ℕ) (result : List (List Char))
    (h : top_n_similar_texts model rows id top_n = .ok result) :
    ∀ t ∈ result, ∃ r ∈ rows, r.id ≠ id ∧ r.text = t := by
  intro t ht
  unfold top_n_similar_texts at h
  match hf : rows.find? (fun r => r.id == id) with
  | none =>
      rw [hf] at h
      cases h
  | some row =>
      rw [hf] at h
      simp only [Except.ok.injEq] at h
      subst h
      unfold get_top_n_similar_texts at ht
      obtain ⟨s, hs, hst⟩ := List.mem_map.mp ht
      have hs2 : s ∈ List.insertionSort
          (simGe (model row.cleaned_text))
          ((rows.filter (fun r => r.id != id)).map
            (fun r => SimRow.mk r.text r.embedding)) :=
        (List.take_sublist _ _).mem hs
      have hs3 := (List.mem_insertionSort _).mp hs2
      obtain ⟨r, hr, hrs⟩ := List.mem_map.mp hs3
      have hr2 := List.mem_filter.mp hr
      refine ⟨r, hr2.1, by simpa using hr2.2, ?_⟩
      rw [← hst, ← hrs]

/-- Store rows for the C10 witness: the queried row (id 1) and two other
rows; the queried row's own embedding equals the query embedding, so only
the `WHERE id != ?` exclusion keeps it out of the returned ranking. -/
def entQ : Entry :=
  ⟨1, "q text".toList, "q".toList, ⟨0, 0, 0, 0⟩, "neutral", "x".toList,
    "20180101".toList, [1, 0]⟩

/-- Second witness row (id 2, orthogonal embedding). -/
def entB : Entry :=
  ⟨2, "b text".toList, "b".toList, ⟨0, 0, 0, 0⟩, "neutral", "x".toList,
    "20180102".toList, [0, 1]⟩

/-- Third witness row (id 3, nearly parallel embedding). -/
def entC : Entry :=
  ⟨3, "c text".toList, "c".toList, ⟨0, 0, 0, 0⟩, "neutral", "x".toList,
    "20180103".toList, [9/10, 1/10]⟩

/-- Witness for `top_n_similar_texts_excludes_self`: querying id 1 with
`top_n = 1` returns the id-3 row's text (the most similar other row), and
every returned text belongs to a row other than the queried one. -/
theorem top_n_similar_texts_excludes_self_witness :
    top_n_similar_texts (fun _ => [1, 0]) [entQ, entB, entC] 1 1
      = .ok ["c text".toList] ∧
    (∀ t ∈ ["c text".toList], ∃ r ∈ [entQ, entB, entC], r.id ≠ 1 ∧ r.text = t) := by
  have h : top_n_similar_texts (fun _ => [1, 0]) [entQ, entB, entC] 1 1
      = .ok ["c text".toList] := by
    norm_num [top_n_similar_texts, get_top_n_similar_texts, List.insertionSort,
      List.orderedInsert, simGe, simPair, dotQ, norm2Q, cosLe, cosSign, List.find?,
      entQ, entB, entC]
  exact ⟨h, top_n_similar_texts_excludes_self (fun _ => [1, 0]) [entQ, entB, entC] 1 1
    ["c text".toList] h⟩
